import Mathlib

/-!
Verification of the ECC (Engineering Change Conveyor) core against its
natural-language specification.

The JavaScript sources under `scripts/ecc/` are shallowly embedded as
executable Lean definitions: strings are handled through their character
lists (all helpers are structural recursions so that concrete runs reduce
by `decide`/`rfl`), effectful code is modelled by explicit effect traces,
and fallible code returns `Except`.
-/

set_option autoImplicit false

namespace ECC

/-! ## Character-list string helpers

`String` operations from the JS runtime (split, trim, startsWith, …) are
modelled by structurally recursive functions on `List Char`.
-/

/-- JS `String.prototype.trim` whitespace test (ASCII part; the inputs we
model are ASCII). -/
def isWs (c : Char) : Bool :=
  c = ' ' ∨ c = '\t' ∨ c = '\n' ∨ c = '\r'

/-- Trim whitespace from both ends of a character list. -/
def trimChars (cs : List Char) : List Char :=
  ((cs.dropWhile isWs).reverse.dropWhile isWs).reverse

/-- Split a character list at every occurrence of the separator character. -/
def splitOnChar (sep : Char) : List Char → List (List Char)
  | [] => [[]]
  | c :: rest =>
    let r := splitOnChar sep rest
    if c = sep then [] :: r
    else
      match r with
      | [] => [[c]]
      | h :: t => (c :: h) :: t

/-- Does `needle` occur as a contiguous infix of `hay`? (JS `String.prototype.includes`.) -/
def hasSub (needle : List Char) : List Char → Bool
  | [] => needle.isPrefixOf []
  | c :: rest => needle.isPrefixOf (c :: rest) ∨ hasSub needle rest

/-- Join character lists with a separator list (JS `Array.prototype.join`). -/
def joinWith (sep : List Char) : List (List Char) → List Char
  | [] => []
  | [x] => x
  | x :: y :: t => x ++ sep ++ joinWith sep (y :: t)

/-! ## `scripts/ecc/diff.js` — touched-file parsing and ownership enforcement -/

/-- JS `p.replace(/\\/g, '/')`: replace every backslash by a forward slash. -/
def backslashToSlash (cs : List Char) : List Char :=
  cs.map (fun c => if c = '\\' then '/' else c)

/-- JS regex `/^[A-Za-z]:\//` test (Windows drive-letter absolute path). -/
def isDriveAbs (cs : List Char) : Bool :=
  match cs with
  | c :: ':' :: '/' :: _ => c.isAlpha
  | _ => false

/-- One step of Node `path.posix.normalize`'s segment resolution: `""` and
`"."` segments are dropped, `".."` pops a previous real segment and is kept
when there is nothing left to pop.  The stack is in reverse order. -/
def normSegStep (stack : List (List Char)) (seg : List Char) : List (List Char) :=
  if seg = [] ∨ seg = ['.'] then stack
  else if seg = ['.', '.'] then
    match stack with
    | top :: rest => if top = ['.', '.'] then ['.', '.'] :: top :: rest else rest
    | [] => [['.', '.']]
  else seg :: stack

/-- Node `path.posix.normalize` restricted to relative inputs (the callers
below reject absolute paths before normalizing).  Resolves `.`/`..`/empty
segments, yields `"."` for an empty result, and preserves a trailing slash. -/
def posixNormalize (cs : List Char) : List Char :=
  let segs := splitOnChar '/' cs
  let core := joinWith ['/'] ((segs.foldl normSegStep []).reverse)
  let trailing := cs ≠ [] ∧ cs.getLast? = some '/'
  if core = [] then (if trailing then ['.', '/'] else ['.'])
  else if trailing then core ++ ['/'] else core

/-- `normalizeRepoPath` from diff.js: forward-slash the path, reject
absolute paths (leading slash or drive letter), normalize, and reject the
current-directory marker and `..` traversal forms. -/
def normalizeRepoPath (p : List Char) : Option (List Char) :=
  let posix := backslashToSlash p
  if posix.head? = some '/' then none
  else if isDriveAbs posix then none
  else
    let norm := posixNormalize posix
    if norm = ['.'] ∨ ['.', '.', '/'].isPrefixOf norm ∨ hasSub ['/', '.', '.', '/'] norm then none
    else some norm

/-- Scanner for the lazy group of `^diff --git a\/(.+?) b\/(.+)$`: find the
earliest split ` b/` (with a non-empty remainder) after at least one
consumed character; `acc` holds the consumed characters in reverse. -/
def goSplit : List Char → List Char → Option (List Char × List Char)
  | acc, ' ' :: 'b' :: '/' :: c :: rest => some (acc.reverse, c :: rest)
  | acc, c :: rest => goSplit (c :: acc) rest
  | _, [] => none

/-- Match one line against `^diff --git a\/(.+?) b\/(.+)$` (diff.js only
runs the regex on lines passing `startsWith('diff --git ')`, which the
regex subsumes).  Returns the two captured paths. -/
def matchDiffHeader (line : List Char) : Option (List Char × List Char) :=
  if ("diff --git a/".toList).isPrefixOf line then
    match line.drop 13 with
    | [] => none
    | c :: rest => goSplit [c] rest
  else none

/-- JS `split(/\r?\n/)`: split at every newline, dropping one carriage
return directly before it. -/
def splitLines (cs : List Char) : List (List Char) :=
  (splitOnChar '\n' cs).map (fun l => if l.getLast? = some '\r' then l.dropLast else l)

/-- A touched file recorded by `touchedFilesFromUnifiedDiff`. -/
structure TouchedFile where
  path : List Char
  invalid : Bool
deriving DecidableEq, Repr

/-- Loop body of `touchedFilesFromUnifiedDiff`: parse a header line, pick
the old path for deletions (`b`-side `/dev/null`) and the new path
otherwise, record invalid paths, and deduplicate valid ones. -/
def touchedStep (acc : List TouchedFile × List (List Char)) (line : List Char) :
    List TouchedFile × List (List Char) :=
  match matchDiffHeader line with
  | none => acc
  | some (aPath, bPath) =>
    let file := if bPath = "/dev/null".toList then aPath else bPath
    match normalizeRepoPath file with
    | none => (acc.1 ++ [{ path := file, invalid := true }], acc.2)
    | some normalized =>
      if normalized ∈ acc.2 then acc
      else (acc.1 ++ [{ path := normalized, invalid := false }], normalized :: acc.2)

/-- `touchedFilesFromUnifiedDiff` from diff.js. -/
def touchedFilesFromUnifiedDiff (patchText : List Char) : List TouchedFile :=
  ((splitLines patchText).foldl touchedStep ([], [])).1

/-- The normalization diff.js applies to `allowedPathPrefixes`: forward
slashes, then append a `/` when the entry does not already end in one;
entries are then filtered to be non-empty (vacuous, as all end in `/`). -/
def normalizeAllowed (ps : List (List Char)) : List (List Char) :=
  ((ps.map backslashToSlash).map
    (fun p => if p.getLast? = some '/' then p else p ++ ['/'])).filter (· ≠ [])

/-- The per-file authorization test of `ensureOwned`: the path equals an
allowed entry minus its final `/`, or starts with the allowed entry. -/
def isOwnedBy (allowed : List (List Char)) (p : List Char) : Bool :=
  allowed.any (fun q => p = q.dropLast ∨ q.isPrefixOf p)

/-- One iteration of `ensureOwned`'s violation collection loop. -/
def ownStep (allowed : List (List Char)) (vs : List (List Char)) (f : TouchedFile) :
    List (List Char) :=
  if f.invalid then vs ++ ["invalid path in patch: ".toList ++ f.path]
  else if isOwnedBy allowed f.path then vs
  else vs ++ ["unauthorized path: ".toList ++ f.path]

/-- Violation collection loop of `ensureOwned`. -/
def ownershipViolations (touchedFiles : List TouchedFile) (allowed : List (List Char)) :
    List (List Char) :=
  touchedFiles.foldl (ownStep allowed) []

/-- `ensureOwned` from diff.js. -/
def ensureOwned (touchedFiles : List TouchedFile) (allowedPathPrefixes : List (List Char)) :
    Except (List Char) Unit :=
  let allowed := normalizeAllowed allowedPathPrefixes
  if allowed = [] then Except.error "allowedPathPrefixes is empty".toList
  else
    let violations := ownershipViolations touchedFiles allowed
    if violations = [] then Except.ok ()
    else
      Except.error
        ("patch ownership check failed:\n- ".toList ++ joinWith "\n- ".toList violations)

/-- Git operations `applyPatch` can issue against the worktree. -/
inductive GitOp where
  | applyCheck
  | applyReal
deriving DecidableEq, Repr

/-- Outcomes of the two git invocations in `applyPatch`. -/
structure GitApplyEnv where
  checkOk : Bool
  applyOk : Bool

/-- `applyPatch` from diff.js in the local (kernel bridge returned `null`)
path, returning the git operations performed alongside the result. -/
def applyPatchLocal (env : GitApplyEnv) (patchText : List Char)
    (allowedPathPrefixes : List (List Char)) :
    List GitOp × Except (List Char) (List (List Char)) :=
  if trimChars patchText = [] then ([], Except.ok [])
  else
    let touched := touchedFilesFromUnifiedDiff patchText
    if touched = [] then
      ([],
       Except.error "patch has content but no \"diff --git\" headers (not a unified diff?)".toList)
    else
      match ensureOwned touched allowedPathPrefixes with
      | Except.error e => ([], Except.error e)
      | Except.ok _ =>
        if env.checkOk then
          if env.applyOk then
            ([GitOp.applyCheck, GitOp.applyReal], Except.ok (touched.map (·.path)))
          else ([GitOp.applyCheck, GitOp.applyReal], Except.error "git apply failed".toList)
        else ([GitOp.applyCheck], Except.error "git apply --check failed".toList)

/-! ## `scripts/ecc/verify.js` — verify runner (local path) -/

/-- A configured verify command (`{name, command}`). -/
structure VerifyCmd where
  name : List Char
  command : List Char
deriving DecidableEq, Repr

/-- One entry of `VerifySummary.commands`. -/
structure VerifyEntry where
  name : List Char
  command : List Char
  ok : Bool
  exitCode : Int
  outputPath : List Char
deriving DecidableEq, Repr

/-- The `VerifySummary` artifact. -/
structure VerifySummary where
  version : Nat
  ranAt : List Char
  commands : List VerifyEntry
  ok : Bool
deriving DecidableEq, Repr

/-- The character class `[a-z0-9._-]` of `safeName`. -/
def isSlugChar (c : Char) : Bool :=
  ('a' ≤ c ∧ c ≤ 'z') ∨ c.isDigit ∨ c = '.' ∨ c = '_' ∨ c = '-'

theorem dropWhile_length_le {α : Type} (p : α → Bool) (l : List α) :
    (l.dropWhile p).length ≤ l.length := by
  induction l with
  | nil => simp
  | cons a t ih =>
    rw [List.dropWhile_cons]
    split
    · exact Nat.le_succ_of_le ih
    · simp

/-- JS `replace(/[^a-z0-9._-]+/g, '-')`: each maximal run of characters
outside the class becomes a single dash. -/
def slugAux : List Char → List Char
  | [] => []
  | c :: rest =>
    if isSlugChar c then c :: slugAux rest
    else '-' :: slugAux (rest.dropWhile (fun d => ¬ isSlugChar d))
termination_by l => l.length
decreasing_by
  · simp only [List.length_cons]; omega
  · simp only [List.length_cons]
    exact Nat.lt_succ_of_le (dropWhile_length_le _ _)

/-- `safeName` from verify.js: trim, lowercase, slugify, strip boundary
dashes, with `"command"` as the fallback for empty results. -/
def safeName (name : List Char) : List Char :=
  let base := if name = [] then "command".toList else name
  let lowered := (trimChars base).map Char.toLower
  let slugged := slugAux lowered
  let stripped := ((slugged.dropWhile (· = '-')).reverse.dropWhile (· = '-')).reverse
  if stripped = [] then "command".toList else stripped

/-- Result of running one shell command (`runCommand`): the exit status —
already defaulted to 1 when the child had none — and the captured output. -/
structure ShellResult where
  status : Int
  stdout : List Char
  stderr : List Char

/-- One iteration of `runVerify`'s command loop: run the command, record
its entry, and clear the aggregate flag on a non-zero exit. -/
def runVerifyStep (exec : List Char → ShellResult) (outDir : List Char)
    (acc : List VerifyEntry × Bool) (c : VerifyCmd) : List VerifyEntry × Bool :=
  let res := exec c.command
  let entryOk := res.status == 0
  (acc.1 ++
    [{ name := c.name, command := c.command, ok := entryOk, exitCode := res.status,
       outputPath := outDir ++ ['/'] ++ safeName c.name ++ ".txt".toList }],
   acc.2 && entryOk)

/-- The command loop of `runVerify` from verify.js in the local (kernel
bridge returned `null`) path, parameterized by the shell execution
oracle.  Every command is run; `ok` starts `true` and is cleared by any
non-zero exit. -/
def runVerifyLocal (exec : List Char → ShellResult) (commands : List VerifyCmd)
    (outDir : List Char) (now : List Char) : VerifySummary :=
  let folded := commands.foldl (runVerifyStep exec outDir) ([], true)
  { version := 1, ranAt := now, commands := folded.1, ok := folded.2 }

/-! ## `scripts/ecc/kernel.js` — `runKernel` result handling -/

/-- What `spawnSync` reported for one kernel invocation. -/
structure SpawnRes where
  spawnError : Option (List Char)
  status : Int
  stdout : List Char
  stderr : List Char

/-- The message built by `runKernel` for a non-zero child exit: the
header line plus the present (trimmed, non-empty) captured streams,
joined by blank lines (`[...].filter(Boolean).join('\n\n')`). -/
def kernelFailMsg (command : List Char) (status : Int) (stdout stderr : List Char) :
    List Char :=
  joinWith "\n\n".toList
    (([some ("ecc-kernel ".toList ++ command ++ " failed (exit ".toList ++
        (toString status).toList ++ [')']),
       if stderr ≠ [] then some ("stderr:\n".toList ++ stderr) else none,
       if stdout ≠ [] then some ("stdout:\n".toList ++ stdout) else none]).filterMap id)

/-- `runKernel` from kernel.js, from the point where the child process has
returned (binary discovery and mode selection found an enabled kernel).
`parse` stands for `JSON.parse` (`none` = parse exception); `emptyObj`
is the `{}` value returned for empty output. -/
def runKernelRes {α : Type} (emptyObj : α) (parse : List Char → Option α)
    (command : List Char) (res : SpawnRes) : Except (List Char) α :=
  match res.spawnError with
  | some m => Except.error ("ecc-kernel spawn failed: ".toList ++ m)
  | none =>
    let stdout := trimChars res.stdout
    let stderr := trimChars res.stderr
    if res.status ≠ 0 then
      Except.error (kernelFailMsg command res.status stdout stderr)
    else if stdout = [] then Except.ok emptyObj
    else
      match parse stdout with
      | some v => Except.ok v
      | none =>
        Except.error ("ecc-kernel returned non-JSON output. Raw:\n".toList ++ stdout.take 2000)

/-! ## `scripts/ecc/git.js` — worktree containment and creation -/

/-- Segment resolution for absolute posix paths (Node `path.posix.resolve`
on an already-absolute input): `.`/empty dropped, `..` pops (and is
dropped at the root).  Stack in reverse order. -/
def absSegStep (stack : List (List Char)) (seg : List Char) : List (List Char) :=
  if seg = [] ∨ seg = ['.'] then stack
  else if seg = ['.', '.'] then stack.tail
  else seg :: stack

/-- Resolved segment list of an absolute posix path. -/
def resolveAbsSegs (p : List Char) : List (List Char) :=
  ((splitOnChar '/' p).foldl absSegStep []).reverse

/-- Drop the common leading segments of two segment lists. -/
def dropCommon : List (List Char) → List (List Char) → List (List Char) × List (List Char)
  | a :: as, b :: bs => if a = b then dropCommon as bs else (a :: as, b :: bs)
  | as, bs => (as, bs)

/-- Node `path.posix.relative` for absolute inputs: `..` for every
remaining `from` segment, then the remaining `to` segments. -/
def posixRelative (fromP toP : List Char) : List Char :=
  let rests := dropCommon (resolveAbsSegs fromP) (resolveAbsSegs toP)
  joinWith ['/'] (rests.1.map (fun _ => ['.', '.']) ++ rests.2)

/-- The containment test of `assertExternalWorktreePath` from git.js:
`rel && !rel.startsWith('..') && !path.isAbsolute(rel)`. -/
def isInsideRepo (repoRoot worktreePath : List Char) : Bool :=
  let rel := posixRelative repoRoot worktreePath
  rel ≠ [] ∧ ¬ (['.', '.'].isPrefixOf rel) ∧ ¬ (rel.head? = some '/')

/-- Filesystem/git effects `ensureWorktree` can perform. -/
inductive WtEffect where
  | branchCreate (branch baseSha : List Char)
  | mkdirParents (worktreePath : List Char)
  | worktreeAdd (worktreePath branch : List Char)
deriving DecidableEq, Repr

/-- Outcomes of the git queries/commands `ensureWorktree` consults. -/
structure WtEnv where
  branchExists : Bool
  pathExists : Bool
  isGitWt : Bool
  branchCreateOk : Bool
  worktreeAddOk : Bool

/-- The error message of `assertExternalWorktreePath`. -/
def insideRepoMsg (repoRoot worktreePath : List Char) : List Char :=
  "Refusing to create worktree inside repo root (would recurse): repoRoot=".toList ++
    repoRoot ++ " worktreePath=".toList ++ worktreePath

/-- `ensureWorktree` from git.js, returning the effects performed
alongside the result.  The containment assertion runs before any effect. -/
def ensureWorktree (env : WtEnv) (repoRoot worktreePath branch baseSha : List Char) :
    List WtEffect × Except (List Char) (List Char) :=
  if isInsideRepo repoRoot worktreePath then
    ([], Except.error (insideRepoMsg repoRoot worktreePath))
  else
    let branchEff := if env.branchExists then [] else [WtEffect.branchCreate branch baseSha]
    if ¬ env.branchExists ∧ ¬ env.branchCreateOk then
      (branchEff, Except.error ("git branch failed".toList))
    else if env.pathExists then
      if env.isGitWt then (branchEff, Except.ok worktreePath)
      else
        (branchEff,
         Except.error ("Worktree path exists but is not a git worktree: ".toList ++ worktreePath))
    else
      let eff := branchEff ++ [WtEffect.mkdirParents worktreePath,
                              WtEffect.worktreeAdd worktreePath branch]
      if env.worktreeAddOk then (eff, Except.ok worktreePath)
      else (eff, Except.error ("git worktree add failed: ".toList ++ worktreePath))

/-! ## Validation errors (`scripts/ecc/validate.js`)

The validators are embedded over typed records (the JSON artifacts after
decoding); the `expected string` / `expected array` type branches of the
JS validators are vacuous on this domain, while all length/content checks
are kept.  Errors are `(path, message)` pairs as in `pushErr`.
-/

/-- A validation error `{path, message}`. -/
abbrev VErr := String × String

/-- `validateString` (type branch vacuous): the `minLength` check. -/
def validateStringE (path : String) (v : List Char) (minLength : Nat := 1) : List VErr :=
  if v.length < minLength then [(path, "expected string length >= " ++ toString minLength)]
  else []

/-- The indexed entry loop of `validateStringArray`. -/
def validateEntriesFrom (path : String) (i : Nat) : List (List Char) → List VErr
  | [] => []
  | s :: rest =>
    validateStringE (path ++ "[" ++ toString i ++ "]") s ++ validateEntriesFrom path (i + 1) rest

/-- `validateStringArray` (type branch vacuous): `minItems`, then each
entry as a string of length ≥ 1. -/
def validateStringArrayE (path : String) (v : List (List Char)) (minItems : Nat := 0) :
    List VErr :=
  (if v.length < minItems then [(path, "expected array length >= " ++ toString minItems)]
   else []) ++
  validateEntriesFrom path 0 v

/-! ## Config / lock and `cmdInit` (`scripts/ecc/config.js`, `lock.js`, `ecc.js`) -/

/-- The ECC config artifact. -/
structure Config where
  version : Int
  backend : List Char
  packs : List (List Char)
  verifyMode : List Char
  verifyCommands : Option (List VerifyCmd)
  createdAt : List Char
deriving DecidableEq, Repr

/-- `validateConfig` from validate.js over the typed record. -/
def validateConfig (cfg : Config) : List VErr :=
  (if cfg.version ≠ 1 then [("$.version", "expected 1")] else []) ++
  (if cfg.backend = "codex".toList ∨ cfg.backend = "claude".toList then []
   else [("$.backend", "expected codex or claude")]) ++
  validateStringArrayE "$.packs" cfg.packs 1 ++
  validateStringE "$.createdAt" cfg.createdAt ++
  (if cfg.verifyMode = "auto".toList ∨ cfg.verifyMode = "manual".toList then []
   else [("$.verify.mode", "expected auto or manual")]) ++
  (match cfg.verifyCommands with
   | none => []
   | some cs =>
     (cs.enum.map (fun ic =>
       validateStringE ("$.verify.commands[" ++ toString ic.1 ++ "].name") ic.2.name ++
       validateStringE ("$.verify.commands[" ++ toString ic.1 ++ "].command") ic.2.command)).flatten)

/-- The registry lock artifact. -/
structure Lock where
  version : Int
  lockedAt : List Char
  engineName : List Char
  catalogType : List Char
  digest : List Char
  packs : List (List Char)
deriving DecidableEq, Repr

/-- `validateLock` from validate.js over the typed record. -/
def validateLock (lock : Lock) : List VErr :=
  (if lock.version ≠ 1 then [("$.version", "expected 1")] else []) ++
  validateStringE "$.lockedAt" lock.lockedAt ++
  validateStringArrayE "$.packs" lock.packs 1 ++
  (if lock.engineName = "ecc".toList then [] else [("$.engine.name", "expected ecc")]) ++
  (if lock.catalogType = "embedded".toList then []
   else [("$.catalog.type", "expected embedded")]) ++
  validateStringE "$.catalog.digest" lock.digest

/-- `createConfig` from config.js. -/
def createConfig (backend : List Char) (packs : List (List Char)) (now : List Char) : Config :=
  { version := 1, backend := backend, packs := packs, verifyMode := "auto".toList,
    verifyCommands := none, createdAt := now }

/-- `buildRegistryLock` from lock.js (`digest` stands for
`computeEmbeddedCatalogDigest()`), including its `throwIfErrors`. -/
def buildRegistryLock (packs : List (List Char)) (now digest : List Char) :
    Except String Lock :=
  let lock : Lock :=
    { version := 1, lockedAt := now, engineName := "ecc".toList,
      catalogType := "embedded".toList, digest := digest, packs := packs }
  if validateLock lock = [] then Except.ok lock else Except.error "registry lock failed"

/-- Project-local state touched by `cmdInit` (file contents modelled as
the decoded values; `writeJson` is deterministic, so value equality is
content equality). -/
structure ProjFs where
  config : Option Config
  lock : Option Lock
  gitignore : Option (List Char)
deriving DecidableEq, Repr

/-- Arguments of `ecc init` after CLI parsing. -/
structure InitArgs where
  backend : Option (List Char)
  packs : Option (List (List Char))

/-- Pack selection of `cmdInit`: the `--packs` argument when present and
non-empty, the catalog defaults otherwise. -/
def selectedOf (defaultPacks : List (List Char)) (args : InitArgs) : List (List Char) :=
  match args.packs with
  | some ps => if ps ≠ [] then ps else defaultPacks
  | none => defaultPacks

/-- The `.ecc/.gitignore` content `ensureEccGitignore` rewrites. -/
def eccGitignore : List Char :=
  "# ECC runtime artifacts (do not commit)\nruns/\ncache/\ntmp/\n".toList

/-- Tail of `cmdInit` once the config value is settled: rewrite the
gitignore, keep the config, and write the registry lock only when none
exists (`writeRegistryLock` with `overwrite: false`). -/
def finishInit (cfg : Config) (now digest : List Char) (fs : ProjFs) : Except String ProjFs :=
  let fs1 : ProjFs := { fs with config := some cfg, gitignore := some eccGitignore }
  match fs1.lock with
  | some _ => Except.ok fs1
  | none =>
    match buildRegistryLock cfg.packs now digest with
    | Except.error e => Except.error e
    | Except.ok lock => Except.ok { fs1 with lock := some lock }

/-- `cmdInit` from ecc.js: validate the backend flag, select and validate
packs, load or create the config (an existing config file is left
untouched byte-for-byte), then `finishInit`.  `knownPacks`/`defaultPacks`
stand for the embedded catalog; `now` and `digest` are the clock and
catalog digest. -/
def cmdInit (knownPacks defaultPacks : List (List Char)) (args : InitArgs)
    (now digest : List Char) (fs : ProjFs) : Except String ProjFs :=
  let backend := args.backend.getD "codex".toList
  if ¬ (backend = "codex".toList ∨ backend = "claude".toList) then
    Except.error "init: --backend must be codex or claude"
  else
    let selected := selectedOf defaultPacks args
    if ¬ selected.all (· ∈ knownPacks) then Except.error "Unknown packs"
    else
      match fs.config with
      | some c =>
        if validateConfig c = [] then finishInit c now digest fs
        else Except.error "ecc config failed"
      | none =>
        let c := createConfig backend selected now
        if validateConfig c = [] then finishInit c now digest fs
        else Except.error "ecc config failed"

/-! ## `scripts/ecc/exec.js` — the per-task apply loop -/

/-- One entry of `ApplyResult.tasks`. -/
structure ExecTaskEntry where
  id : List Char
  patchPath : List Char
  ok : Bool
  errMsg : Option (List Char)
deriving DecidableEq, Repr

/-- The `ApplyResult` artifact (accumulated in memory during exec). -/
structure ApplyResultM where
  version : Nat
  appliedAt : List Char
  baseSha : List Char
  tasks : List ExecTaskEntry
deriving DecidableEq, Repr

/-- Disk writes `execRun`'s task loop performs. -/
inductive ExecEvent where
  | writePatch (taskId : List Char) (patch : List Char)
  | writeApply (snapshot : ApplyResultM)
deriving DecidableEq, Repr

/-- The task loop of `execRun` from exec.js (tasks already
topologically ordered), followed by the final `writeJson` of the apply
result.  `provider` stands for `provider.generatePatch` (`none` = the
patch was not a string) and `applyRes` for `diff.applyPatch`'s outcome.
Returns the write trace, the final apply result, and the propagated
exception, if any. -/
def execTasks (provider : List Char → Option (List Char))
    (applyRes : List Char → Except (List Char) Unit) (patchesDir : List Char) :
    List (List Char) → ApplyResultM → List ExecEvent × ApplyResultM × Option (List Char)
  | [], acc => ([ExecEvent.writeApply acc], acc, none)
  | tid :: rest, acc =>
    let patchPath := patchesDir ++ ['/'] ++ tid ++ ".diff".toList
    match provider tid with
    | none =>
      let acc' := { acc with tasks := acc.tasks ++
        [{ id := tid, patchPath := patchPath, ok := false,
           errMsg := some "provider returned non-string patch".toList }] }
      ([ExecEvent.writeApply acc'], acc',
       some ("provider returned non-string patch for task: ".toList ++ tid))
    | some patch =>
      match applyRes tid with
      | Except.ok _ =>
        let acc' := { acc with tasks := acc.tasks ++
          [{ id := tid, patchPath := patchPath, ok := true, errMsg := none }] }
        let next := execTasks provider applyRes patchesDir rest acc'
        (ExecEvent.writePatch tid patch :: next.1, next.2.1, next.2.2)
      | Except.error msg =>
        let acc' := { acc with tasks := acc.tasks ++
          [{ id := tid, patchPath := patchPath, ok := false, errMsg := some msg }] }
        ([ExecEvent.writePatch tid patch, ExecEvent.writeApply acc'], acc', some msg)

/-! ## Run status machine (`scripts/ecc/run.js`, `scripts/ecc.js`) -/

/-- The run lifecycle states. -/
inductive RunStatus where
  | planned
  | executing
  | verifying
  | succeeded
  | failed
deriving DecidableEq, Repr

/-- The part of the persisted run record the lifecycle claims are about. -/
structure RunState where
  status : RunStatus
  endedAt : Option (List Char)
deriving DecidableEq, Repr

/-- `markRunEnded` from run.js. -/
def markRunEnded (run : RunState) (status : RunStatus) (now : List Char) : RunState :=
  { run with status := status, endedAt := some now }

/-- The run records `cmdVerify` persists (ecc.js), in order, once the
worktree is available: `verifying` is written unconditionally, then the
terminal state chosen by the verify summary. -/
def cmdVerifyRunWrites (run : RunState) (summaryOk : Bool) (now : List Char) :
    List RunState :=
  let r1 := { run with status := RunStatus.verifying }
  if summaryOk then [r1, markRunEnded r1 RunStatus.succeeded now]
  else [r1, markRunEnded r1 RunStatus.failed now]

/-- The statuses a single `ecc run` invocation persists, in order
(ecc.js `cmdRun`): `planned` at run creation, `executing` at exec entry,
then either the exec failure path or `verifying` followed by the
verify outcome. -/
def cmdRunStatusWrites (execOk verifyOk : Bool) : List RunStatus :=
  [RunStatus.planned, RunStatus.executing] ++
    (if execOk then
      [RunStatus.verifying] ++
        (if verifyOk then [RunStatus.succeeded] else [RunStatus.failed])
     else [RunStatus.failed])

/-- Position of a status along the documented forward chain
(both terminal states rank last). -/
def statusRank : RunStatus → Nat
  | RunStatus.planned => 0
  | RunStatus.executing => 1
  | RunStatus.verifying => 2
  | RunStatus.succeeded => 3
  | RunStatus.failed => 3

/-! ## `validatePlan` (`scripts/ecc/validate.js`) -/

/-- A plan task over decoded fields. -/
structure TaskT where
  id : List Char
  title : List Char
  kind : List Char
  dependsOn : List (List Char)
  allowedPathPrefixes : List (List Char)
  prompt : List Char
deriving DecidableEq, Repr

/-- A plan over decoded fields. -/
structure PlanT where
  version : Int
  intent : List Char
  tasks : List TaskT
deriving DecidableEq, Repr

/-- The per-task checks of `validatePlan`'s first loop, including the
duplicate-id check against the ids seen so far. -/
def taskErrs (i : Nat) (seen : List (List Char)) (t : TaskT) : List VErr :=
  let base := "$.tasks[" ++ toString i ++ "]"
  validateStringE (base ++ ".id") t.id ++
  validateStringE (base ++ ".title") t.title ++
  (if t.kind = "patch".toList then [] else [(base ++ ".kind", "expected patch")]) ++
  validateStringArrayE (base ++ ".dependsOn") t.dependsOn 0 ++
  validateStringArrayE (base ++ ".allowedPathPrefixes") t.allowedPathPrefixes 1 ++
  validateStringE (base ++ ".prompt") t.prompt ++
  (if t.id ∈ seen then [(base ++ ".id", "duplicate task id")] else [])

/-- `validatePlan`'s first loop over the task list. -/
def tasksLoop (i : Nat) (seen : List (List Char)) : List TaskT → List VErr
  | [] => []
  | t :: rest => taskErrs i seen t ++ tasksLoop (i + 1) (t.id :: seen) rest

/-- `tasksById.get`: a JS `Map` built by insertion keeps the last value
written for a key. -/
def lookupById (tasks : List TaskT) (id : List Char) : Option TaskT :=
  tasks.foldl (fun acc t => if t.id = id then some t else acc) none

/-- `tasksById.keys()`: task ids in first-insertion order, deduplicated. -/
def idKeys : List TaskT → List (List Char)
  | [] => []
  | t :: rest => t.id :: (idKeys rest).filter (· ≠ t.id)

/-- Inner loop of the `dependsOn` referential-integrity check: one task's
dependency entries. -/
def depRefInner (tasks : List TaskT) (i j : Nat) : List (List Char) → List VErr
  | [] => []
  | d :: rest =>
    (if (lookupById tasks d).isSome then ([] : List VErr)
     else [("$.tasks[" ++ toString i ++ "].dependsOn[" ++ toString j ++ "]", "unknown task id")]) ++
    depRefInner tasks i (j + 1) rest

/-- Outer loop of the `dependsOn` referential-integrity check (lookups go
against the full task list while iterating it). -/
def depRefOuter (tasks : List TaskT) (i : Nat) : List TaskT → List VErr
  | [] => []
  | t :: rest => depRefInner tasks i 0 t.dependsOn ++ depRefOuter tasks (i + 1) rest

/-- The `dependsOn` referential-integrity loop of `validatePlan`. -/
def depRefErrs (tasks : List TaskT) : List VErr :=
  depRefOuter tasks 0 tasks

/-- The dependency list the cycle DFS follows for a node. -/
def depsOf (tasks : List TaskT) (id : List Char) : List (List Char) :=
  match lookupById tasks id with
  | some t => t.dependsOn
  | none => []

/-- State of the three-color DFS (`visiting`/`visited` sets and the
errors pushed so far). -/
structure DfsSt where
  visiting : List (List Char)
  visited : List (List Char)
  errs : List VErr
deriving Repr

/-- The cycle error message pushed by `dfs`. -/
def cycleErrOf (id : List Char) : VErr :=
  ("$.tasks", "cycle detected at task \"" ++ String.mk id ++ "\"")

/-- The recursive `dfs` of `validatePlan`'s cycle detection, with an
explicit fuel (the JS recursion terminates because `visiting` grows on
every nested level; `validatePlan` below supplies sufficient fuel). -/
def dfsAux (tasks : List TaskT) : Nat → List Char → DfsSt → DfsSt
  | 0, _, s => s
  | fuel + 1, id, s =>
    if id ∈ s.visited then s
    else if id ∈ s.visiting then { s with errs := s.errs ++ [cycleErrOf id] }
    else
      let s1 : DfsSt := { s with visiting := id :: s.visiting }
      let s2 := (depsOf tasks id).foldl (fun acc dep => dfsAux tasks fuel dep acc) s1
      { s2 with visiting := s2.visiting.erase id, visited := id :: s2.visited }

/-- Fuel that strictly exceeds the number of ids the DFS can ever have
on its `visiting` stack. -/
def cycleFuel (tasks : List TaskT) : Nat :=
  (idKeys tasks).length + (tasks.map (fun t => t.dependsOn.length)).sum + 1

/-- The cycle-detection pass of `validatePlan`: one shared DFS state
driven over all map keys. -/
def cycleErrs (tasks : List TaskT) : List VErr :=
  ((idKeys tasks).foldl (fun s id => dfsAux tasks (cycleFuel tasks) id s)
    { visiting := [], visited := [], errs := [] }).errs

/-- `validatePlan` from validate.js over the typed plan: version and
intent checks, task-list length, the per-task loop, `dependsOn`
referential integrity, and cycle detection, in push order. -/
def validatePlan (p : PlanT) : List VErr :=
  (if p.version ≠ 1 then [("$.version", "expected 1")] else []) ++
  validateStringE "$.intent" p.intent ++
  (if p.tasks.length < 1 then [("$.tasks", "expected at least 1 task")] else []) ++
  tasksLoop 0 [] p.tasks ++
  depRefErrs p.tasks ++
  cycleErrs p.tasks

/-! ## Supporting lemmas -/

theorem touchedFold_no_header (ls : List (List Char))
    (h : ∀ l ∈ ls, matchDiffHeader l = none) :
    ∀ acc, ls.foldl touchedStep acc = acc := by
  induction ls with
  | nil => intro acc; rfl
  | cons l rest ih =>
    intro acc
    have hl : matchDiffHeader l = none := h l (List.mem_cons_self _ _)
    have hrest : ∀ x ∈ rest, matchDiffHeader x = none := fun x hx => h x (List.mem_cons_of_mem _ hx)
    simp only [List.foldl_cons]
    rw [show touchedStep acc l = acc by simp [touchedStep, hl]]
    exact ih hrest acc

theorem touchedFilesFromUnifiedDiff_eq_nil (p : List Char)
    (h : ∀ l ∈ splitLines p, matchDiffHeader l = none) :
    touchedFilesFromUnifiedDiff p = [] := by
  unfold touchedFilesFromUnifiedDiff
  rw [touchedFold_no_header _ h]

/-- Entry recorded by the verify loop for one command. -/
def verifyEntryOf (exec : List Char → ShellResult) (outDir : List Char)
    (c : VerifyCmd) : VerifyEntry :=
  { name := c.name, command := c.command, ok := (exec c.command).status == 0,
    exitCode := (exec c.command).status,
    outputPath := outDir ++ ['/'] ++ safeName c.name ++ ".txt".toList }

theorem runVerify_foldl (exec : List Char → ShellResult) (outDir : List Char) :
    ∀ (cmds : List VerifyCmd) (acc : List VerifyEntry × Bool),
      cmds.foldl (runVerifyStep exec outDir) acc =
        (acc.1 ++ cmds.map (verifyEntryOf exec outDir),
         acc.2 && cmds.all (fun c => (exec c.command).status == 0)) := by
  intro cmds
  induction cmds with
  | nil => intro acc; simp
  | cons c rest ih =>
    intro acc
    simp only [List.foldl_cons, List.map_cons, List.all_cons]
    rw [ih]
    simp [runVerifyStep, verifyEntryOf, Bool.and_assoc]

/-! ## C5 — verify runner completeness and `ok` aggregation -/

/-- C5: the verify runner records one entry per configured command, in
order, with the actual exit status of each (no short-circuit on earlier
failures), and the summary `ok` equals the conjunction of all
`exitCode == 0` checks (vacuously true for zero commands). -/
theorem runVerify_runs_all_and_ok_eq_and (exec : List Char → ShellResult)
    (cmds : List VerifyCmd) (outDir now : List Char) :
    (runVerifyLocal exec cmds outDir now).commands.map
        (fun e => (e.name, e.command, e.exitCode, e.ok)) =
      cmds.map (fun c =>
        (c.name, c.command, (exec c.command).status, (exec c.command).status == 0)) ∧
    (runVerifyLocal exec cmds outDir now).ok =
      cmds.all (fun c => (exec c.command).status == 0) := by
  unfold runVerifyLocal
  rw [runVerify_foldl]
  simp [verifyEntryOf]

/-! ## C3 — trivial and malformed patches -/

/-- C3: an empty or whitespace-only patch succeeds trivially with an
empty touched-file list and no git operation; a patch with non-trivial
content but no recognizable diff headers fails as malformed before any
git operation. -/
theorem applyPatch_noop_and_malformed (env : GitApplyEnv) (patchText : List Char)
    (aps : List (List Char)) :
    (trimChars patchText = [] → applyPatchLocal env patchText aps = ([], Except.ok [])) ∧
    (trimChars patchText ≠ [] →
      (∀ l ∈ splitLines patchText, matchDiffHeader l = none) →
      applyPatchLocal env patchText aps =
        ([],
         Except.error
           "patch has content but no \"diff --git\" headers (not a unified diff?)".toList)) := by
  constructor
  · intro h
    simp [applyPatchLocal, h]
  · intro h hn
    have ht := touchedFilesFromUnifiedDiff_eq_nil patchText hn
    simp [applyPatchLocal, h, ht]

theorem applyPatch_noop_and_malformed_witness :
    applyPatchLocal ⟨true, true⟩ " \n ".toList ["src/".toList] = ([], Except.ok []) ∧
    applyPatchLocal ⟨true, true⟩ "hello world".toList ["src/".toList] =
      ([],
       Except.error
         "patch has content but no \"diff --git\" headers (not a unified diff?)".toList) :=
  ⟨(applyPatch_noop_and_malformed ⟨true, true⟩ " \n ".toList ["src/".toList]).1 (by decide),
   (applyPatch_noop_and_malformed ⟨true, true⟩ "hello world".toList ["src/".toList]).2
     (by decide) (by decide)⟩

/-! ## C9 — worktree containment rejection -/

/-- C9: `ensureWorktree` rejects, before performing any effect, every
`desiredPath` classified as inside `repoRoot` by the relative-path
containment test of `assertExternalWorktreePath`. -/
theorem ensureWorktree_rejects_inside (env : WtEnv)
    (repoRoot worktreePath branch baseSha : List Char)
    (h : isInsideRepo repoRoot worktreePath = true) :
    ensureWorktree env repoRoot worktreePath branch baseSha =
      ([], Except.error (insideRepoMsg repoRoot worktreePath)) := by
  simp [ensureWorktree, h]

theorem ensureWorktree_rejects_inside_witness :
    isInsideRepo "/repo".toList "/repo/sub/wt".toList = true ∧
    ensureWorktree ⟨true, true, true, true, true⟩ "/repo".toList "/repo/sub/wt".toList
        "b".toList "s".toList =
      ([], Except.error (insideRepoMsg "/repo".toList "/repo/sub/wt".toList)) :=
  ⟨by decide,
   ensureWorktree_rejects_inside ⟨true, true, true, true, true⟩ "/repo".toList
     "/repo/sub/wt".toList "b".toList "s".toList (by decide)⟩

/-! ## C7 — run status lifecycle -/

/-- C7 counterexample: `cmdVerify` on a run whose persisted status is the
terminal `succeeded` unconditionally writes `verifying` first, moving the
run out of a terminal state — terminality is not enforced by any
operation. -/
theorem runStatus_terminal_counterexample :
    (cmdVerifyRunWrites { status := RunStatus.succeeded, endedAt := some "e".toList }
        true "n".toList).head?.map RunState.status = some RunStatus.verifying ∧
    RunStatus.verifying ≠ RunStatus.succeeded ∧ RunStatus.verifying ≠ RunStatus.failed := by
  decide

/-- C7 (amended): within a single operation the persisted statuses only
move forward along `planned → executing → verifying → succeeded/failed`
and end terminal, and `markRunEnded` stamps `endedAt` when entering a
terminal state; terminality across operations is not guarded (see the
counterexample). -/
theorem runStatus_forward_within_operations :
    (∀ execOk verifyOk,
      List.Chain' (fun a b => statusRank a < statusRank b) (cmdRunStatusWrites execOk verifyOk) ∧
      ∃ last, (cmdRunStatusWrites execOk verifyOk).getLast? = some last ∧
        (last = RunStatus.succeeded ∨ last = RunStatus.failed)) ∧
    (∀ run status now,
      (markRunEnded run status now).status = status ∧
      (markRunEnded run status now).endedAt = some now) ∧
    (∀ run ok now,
      (cmdVerifyRunWrites run ok now).map RunState.status =
        [RunStatus.verifying, if ok then RunStatus.succeeded else RunStatus.failed] ∧
      (cmdVerifyRunWrites run ok now).getLast?.map RunState.endedAt = some (some now)) := by
  refine ⟨?_, ?_, ?_⟩
  · intro execOk verifyOk
    constructor
    · cases execOk <;> cases verifyOk <;>
        norm_num [cmdRunStatusWrites, List.chain'_cons, statusRank]
    · cases execOk <;> cases verifyOk
      · exact ⟨RunStatus.failed, by decide, Or.inr rfl⟩
      · exact ⟨RunStatus.failed, by decide, Or.inr rfl⟩
      · exact ⟨RunStatus.failed, by decide, Or.inr rfl⟩
      · exact ⟨RunStatus.succeeded, by decide, Or.inl rfl⟩
  · intro run status now
    exact ⟨rfl, rfl⟩
  · intro run ok now
    cases ok <;> simp [cmdVerifyRunWrites, markRunEnded]

/-! ## C10 — kernel bridge output handling -/

/-- A `JSON.parse` oracle accepting nothing (`""` and whitespace are not
valid JSON documents, so any parser agrees with it on those inputs). -/
def parseNone : List Char → Option Unit := fun _ => none

/-- C10 counterexample: a zero exit whose output stream is whitespace-only
— not a valid JSON document — does not raise an error: `runKernel`
silently substitutes the default empty-object value. -/
theorem runKernel_empty_output_counterexample :
    runKernelRes () parseNone "verify.run".toList
      { spawnError := none, status := 0, stdout := "   ".toList, stderr := [] } =
      Except.ok () := by
  rfl

/-- C10 (amended): a non-zero child exit always raises an error whose
message embeds the captured (trimmed, non-empty) outputs; a zero exit
with non-empty non-JSON output raises an error; a zero exit with an
empty output stream yields the default empty object instead of an
error. -/
theorem kernelFailMsg_embeds (command : List Char) (status : Int) (stdout stderr : List Char) :
    (stderr ≠ [] → ∃ pre post, kernelFailMsg command status stdout stderr =
      pre ++ stderr ++ post) ∧
    (stdout ≠ [] → ∃ pre post, kernelFailMsg command status stdout stderr =
      pre ++ stdout ++ post) := by
  constructor
  · intro hE
    by_cases ho : stdout = []
    · exact ⟨"ecc-kernel ".toList ++ command ++ " failed (exit ".toList ++
        (toString status).toList ++ [')'] ++ "\n\n".toList ++ "stderr:\n".toList, [],
        by simp [kernelFailMsg, hE, ho, joinWith]⟩
    · exact ⟨"ecc-kernel ".toList ++ command ++ " failed (exit ".toList ++
        (toString status).toList ++ [')'] ++ "\n\n".toList ++ "stderr:\n".toList,
        "\n\n".toList ++ ("stdout:\n".toList ++ stdout),
        by simp [kernelFailMsg, hE, ho, joinWith]⟩
  · intro hO
    by_cases he : stderr = []
    · exact ⟨"ecc-kernel ".toList ++ command ++ " failed (exit ".toList ++
        (toString status).toList ++ [')'] ++ "\n\n".toList ++ "stdout:\n".toList, [],
        by simp [kernelFailMsg, he, hO, joinWith]⟩
    · exact ⟨"ecc-kernel ".toList ++ command ++ " failed (exit ".toList ++
        (toString status).toList ++ [')'] ++ "\n\n".toList ++
          ("stderr:\n".toList ++ stderr) ++ "\n\n".toList ++ "stdout:\n".toList, [],
        by simp [kernelFailMsg, he, hO, joinWith]⟩

/-- C10 (amended): a non-zero child exit always raises an error whose
message embeds the captured (trimmed, non-empty) outputs; a zero exit
with non-empty non-JSON output raises an error; a zero exit with an
empty output stream yields the default empty object instead of an
error. -/
theorem runKernel_error_propagation {α : Type} (emptyObj : α)
    (parse : List Char → Option α) (command : List Char) (res : SpawnRes)
    (hspawn : res.spawnError = none) :
    (res.status ≠ 0 →
      ∃ msg, runKernelRes emptyObj parse command res = Except.error msg ∧
        (trimChars res.stderr ≠ [] →
          ∃ pre post, msg = pre ++ trimChars res.stderr ++ post) ∧
        (trimChars res.stdout ≠ [] →
          ∃ pre post, msg = pre ++ trimChars res.stdout ++ post)) ∧
    (res.status = 0 → trimChars res.stdout ≠ [] → parse (trimChars res.stdout) = none →
      runKernelRes emptyObj parse command res =
        Except.error ("ecc-kernel returned non-JSON output. Raw:\n".toList ++
          (trimChars res.stdout).take 2000)) ∧
    (res.status = 0 → trimChars res.stdout = [] →
      runKernelRes emptyObj parse command res = Except.ok emptyObj) := by
  obtain ⟨se, st, so, ser⟩ := res
  simp only at hspawn
  subst hspawn
  refine ⟨?_, ?_, ?_⟩
  · intro hst
    refine ⟨kernelFailMsg command st (trimChars so) (trimChars ser), ?_, ?_, ?_⟩
    · simp [runKernelRes, hst]
    · exact (kernelFailMsg_embeds command st (trimChars so) (trimChars ser)).1
    · exact (kernelFailMsg_embeds command st (trimChars so) (trimChars ser)).2
  · intro hst ho hp
    dsimp only at hst ho hp
    simp [runKernelRes, hst, ho, hp]
  · intro hst ho
    dsimp only at hst ho
    simp [runKernelRes, hst, ho]

theorem runKernel_error_propagation_witness :
    runKernelRes () parseNone "patch.apply".toList
      { spawnError := none, status := 0, stdout := "notjson".toList, stderr := [] } =
      Except.error ("ecc-kernel returned non-JSON output. Raw:\n".toList ++
        (trimChars "notjson".toList).take 2000) :=
  (runKernel_error_propagation () parseNone "patch.apply".toList
    { spawnError := none, status := 0, stdout := "notjson".toList, stderr := [] }
    rfl).2.1 rfl (by decide) rfl

/-! ## C6 — persistence of the ApplyResult during exec -/

/-- The ids of the tasks a single exec invocation processes before
stopping: all of them, or everything up to and including the first
failing task. -/
def processedPrefix (provider : List Char → Option (List Char))
    (applyRes : List Char → Except (List Char) Unit) : List (List Char) → List (List Char)
  | [] => []
  | tid :: rest =>
    match provider tid with
    | none => [tid]
    | some _ =>
      match applyRes tid with
      | Except.ok _ => tid :: processedPrefix provider applyRes rest
      | Except.error _ => [tid]

/-- Test whether an event is an ApplyResult write whose snapshot holds
exactly `n` task entries. -/
def isApplyWriteLen (n : Nat) : ExecEvent → Bool
  | ExecEvent.writeApply snap => snap.tasks.length = n
  | _ => false

/-- A provider producing a patch for every task. -/
def provAll : List Char → Option (List Char) := fun _ => some "x".toList

/-- An apply oracle accepting every patch. -/
def applyAll : List Char → Except (List Char) Unit := fun _ => Except.ok ()

/-- An empty starting ApplyResult. -/
def accNil : ApplyResultM :=
  ⟨1, "at".toList, "sha".toList, []⟩

/-- The write trace of the two-task all-success exec run below. -/
def traceTwoOk : List ExecEvent :=
  [ExecEvent.writePatch "t1".toList "x".toList,
   ExecEvent.writePatch "t2".toList "x".toList,
   ExecEvent.writeApply
     ⟨1, "at".toList, "sha".toList,
      [⟨"t1".toList, "patches/t1.diff".toList, true, none⟩,
       ⟨"t2".toList, "patches/t2.diff".toList, true, none⟩]⟩]

/-- C6 counterexample: in a two-task run where both tasks succeed, the
ApplyResult is written exactly once — at the end, after both tasks —
so it is not persisted immediately after every task (there is no write
whose snapshot holds only the first task's entry). -/
theorem execTasks_not_per_task_counterexample :
    (execTasks provAll applyAll "patches".toList ["t1".toList, "t2".toList] accNil).1 =
      traceTwoOk ∧
    (traceTwoOk.countP
      (fun e => match e with | ExecEvent.writeApply _ => true | _ => false)) = 1 ∧
    ¬ (∀ i, i < 2 → ∃ ev ∈ traceTwoOk, isApplyWriteLen (i + 1) ev = true) := by
  refine ⟨by rfl, by decide, by decide⟩

/-- C6 (amended): the exec loop persists the ApplyResult as its final
write both when all tasks apply and when a task fails (before the
exception propagates), and that final snapshot holds one entry per
processed task, in order — so after any mid-run failure the evidence of
every already-processed task, including the failing one, is on disk;
successful intermediate tasks do not trigger a write of their own. -/
theorem execTasks_evidence_persisted (provider : List Char → Option (List Char))
    (applyRes : List Char → Except (List Char) Unit) (patchesDir : List Char)
    (tids : List (List Char)) (acc : ApplyResultM) :
    (∃ pre, (execTasks provider applyRes patchesDir tids acc).1 =
      pre ++ [ExecEvent.writeApply (execTasks provider applyRes patchesDir tids acc).2.1]) ∧
    (execTasks provider applyRes patchesDir tids acc).2.1.tasks.map ExecTaskEntry.id =
      acc.tasks.map ExecTaskEntry.id ++ processedPrefix provider applyRes tids := by
  induction tids generalizing acc with
  | nil => exact ⟨⟨[], rfl⟩, by simp [execTasks, processedPrefix]⟩
  | cons tid rest ih =>
    cases hp : provider tid with
    | none =>
      refine ⟨⟨[], by simp [execTasks, hp]⟩, ?_⟩
      simp [execTasks, hp, processedPrefix]
    | some patch =>
      cases ha : applyRes tid with
      | ok u =>
        obtain ⟨⟨pre, hpre⟩, hmap⟩ := ih { acc with tasks := acc.tasks ++
          [{ id := tid, patchPath := patchesDir ++ ['/'] ++ tid ++ ".diff".toList,
             ok := true, errMsg := none }] }
        constructor
        · refine ⟨ExecEvent.writePatch tid patch :: pre, ?_⟩
          simp only [execTasks, hp, ha]
          rw [hpre]
          rfl
        · simp only [execTasks, hp, ha]
          rw [hmap]
          simp [processedPrefix, hp, ha]
      | error msg =>
        refine ⟨⟨[ExecEvent.writePatch tid patch], by simp [execTasks, hp, ha]⟩, ?_⟩
        simp [execTasks, hp, ha, processedPrefix]

/-! ## C8 — idempotent initialization -/

theorem finishInit_inv {cfg : Config} {now digest : List Char} {fs fs1 : ProjFs}
    (h : finishInit cfg now digest fs = Except.ok fs1) :
    fs1.config = some cfg ∧ fs1.lock.isSome = true := by
  unfold finishInit at h
  dsimp only at h
  cases hl : fs.lock with
  | some l =>
    rw [hl] at h
    cases h
    exact ⟨rfl, rfl⟩
  | none =>
    rw [hl] at h
    cases hb : buildRegistryLock cfg.packs now digest with
    | error e => rw [hb] at h; exact Except.noConfusion h
    | ok lock =>
      rw [hb] at h
      cases h
      exact ⟨rfl, rfl⟩

theorem finishInit_keeps_lock {cfg : Config} {now digest : List Char} {fs : ProjFs}
    {l : Lock} (h : fs.lock = some l) :
    finishInit cfg now digest fs =
      Except.ok { fs with config := some cfg, gitignore := some eccGitignore } := by
  unfold finishInit
  dsimp only
  rw [h]

/-- C8: initialization is idempotent — when a first `init` succeeds, a
second `init` on the resulting project state succeeds and leaves both the
config content and the lock file (hence its digest) exactly as the first
invocation left them. -/
theorem cmdInit_idempotent (knownPacks defaultPacks : List (List Char))
    (a1 a2 : InitArgs) (n1 d1 n2 d2 : List Char) (fs0 fs1 : ProjFs)
    (h1 : cmdInit knownPacks defaultPacks a1 n1 d1 fs0 = Except.ok fs1)
    (hb2 : a2.backend.getD "codex".toList = "codex".toList ∨
      a2.backend.getD "codex".toList = "claude".toList)
    (hp2 : (selectedOf defaultPacks a2).all (· ∈ knownPacks) = true) :
    ∃ fs2, cmdInit knownPacks defaultPacks a2 n2 d2 fs1 = Except.ok fs2 ∧
      fs2.config = fs1.config ∧ fs2.lock = fs1.lock := by
  have hinv : (∃ c, fs1.config = some c ∧ validateConfig c = []) ∧ fs1.lock.isSome = true := by
    simp only [cmdInit] at h1
    repeat' split at h1
    all_goals
      first
      | exact Except.noConfusion h1
      | (rename_i hv
         obtain ⟨h1a, h1b⟩ := finishInit_inv h1
         exact ⟨⟨_, h1a, hv⟩, h1b⟩)
  obtain ⟨⟨c, hc, hv⟩, hlock⟩ := hinv
  obtain ⟨l, hl⟩ := Option.isSome_iff_exists.mp hlock
  refine ⟨{ fs1 with config := some c, gitignore := some eccGitignore }, ?_, ?_, ?_⟩
  · simp only [cmdInit]
    rw [if_neg (not_not_intro hb2), if_neg (not_not_intro hp2)]
    simp only [hc]
    rw [if_pos hv]
    exact finishInit_keeps_lock hl
  · exact hc.symm
  · rfl

/-- A one-pack catalog for the concrete init scenario. -/
def packsK : List (List Char) := ["core".toList]

/-- The project state after a first `init` on an empty project with the
catalog `packsK`, clock `"t1"` and digest `"dg"`. -/
def fsAfterFirst : ProjFs :=
  { config := some (createConfig "codex".toList ["core".toList] "t1".toList),
    lock := some ⟨1, "t1".toList, "ecc".toList, "embedded".toList, "dg".toList,
      ["core".toList]⟩,
    gitignore := some eccGitignore }

theorem cmdInit_idempotent_witness :
    ∃ fs2, cmdInit packsK packsK { backend := none, packs := none } "t2".toList "dg2".toList
        fsAfterFirst = Except.ok fs2 ∧
      fs2.config = fsAfterFirst.config ∧ fs2.lock = fsAfterFirst.lock :=
  cmdInit_idempotent packsK packsK { backend := none, packs := none }
    { backend := none, packs := none } "t1".toList "dg".toList "t2".toList "dg2".toList
    { config := none, lock := none, gitignore := none } fsAfterFirst (by rfl)
    (Or.inl rfl) (by rfl)

/-! ## C2 — ownership authorization -/

theorem ownStep_append (allowed : List (List Char)) :
    ∀ (tf : List TouchedFile) (vs : List (List Char)),
      tf.foldl (ownStep allowed) vs = vs ++ tf.foldl (ownStep allowed) [] := by
  intro tf
  induction tf with
  | nil => intro vs; simp
  | cons f rest ih =>
    intro vs
    have hstep : ∀ ws, ownStep allowed ws f = ws ++ ownStep allowed [] f := by
      intro ws
      unfold ownStep
      split
      · simp
      split <;> simp
    simp only [List.foldl_cons]
    rw [ih (ownStep allowed vs f), hstep vs, ih (ownStep allowed [] f), List.append_assoc]

theorem ownershipViolations_nil_iff (tf : List TouchedFile) (allowed : List (List Char)) :
    ownershipViolations tf allowed = [] ↔
      ∀ f ∈ tf, f.invalid = false ∧ isOwnedBy allowed f.path = true := by
  induction tf with
  | nil => simp [ownershipViolations]
  | cons f rest ih =>
    unfold ownershipViolations at ih ⊢
    simp only [List.foldl_cons]
    rw [ownStep_append allowed rest (ownStep allowed [] f), List.append_eq_nil]
    constructor
    · rintro ⟨h1, h2⟩
      intro g hg
      rcases List.mem_cons.mp hg with hg | hg
      · subst hg
        unfold ownStep at h1
        constructor
        · by_contra hinv
          rw [Bool.not_eq_false] at hinv
          rw [if_pos hinv] at h1
          simp at h1
        · by_contra hown
          rw [Bool.not_eq_true] at hown
          have hinv : g.invalid = false := by
            by_contra hinv2
            rw [Bool.not_eq_false] at hinv2
            rw [if_pos hinv2] at h1
            simp at h1
          rw [if_neg (by simp [hinv]), if_neg (by simp [hown])] at h1
          simp at h1
      · exact (ih.mp h2) g hg
    · intro h
      obtain ⟨hinv, hown⟩ := h f (List.mem_cons_self _ _)
      constructor
      · unfold ownStep
        rw [if_neg (by simp [hinv]), if_pos hown]
      · exact ih.mpr (fun g hg => h g (List.mem_cons_of_mem _ hg))

theorem ensureOwned_ok_iff (tf : List TouchedFile) (aps : List (List Char)) :
    ensureOwned tf aps = Except.ok () ↔
      (normalizeAllowed aps ≠ [] ∧
       ∀ f ∈ tf, f.invalid = false ∧ isOwnedBy (normalizeAllowed aps) f.path = true) := by
  unfold ensureOwned
  dsimp only
  split
  · rename_i hnil
    constructor
    · intro h
      exact Except.noConfusion h
    · rintro ⟨hne, _⟩
      exact absurd hnil hne
  · rename_i hne
    split
    · rename_i hv
      constructor
      · intro _
        exact ⟨hne, (ownershipViolations_nil_iff tf (normalizeAllowed aps)).mp hv⟩
      · intro _
        rfl
    · rename_i hv
      constructor
      · intro h
        exact Except.noConfusion h
      · rintro ⟨_, hall⟩
        exact absurd ((ownershipViolations_nil_iff tf (normalizeAllowed aps)).mpr hall) hv

/-- The prefix normalization described by the spec sentence: every
allowed entry ends in a single trailing separator (all existing trailing
separators collapsed to one). -/
def specNormalizeEntry (p : List Char) : List Char :=
  ((backslashToSlash p).reverse.dropWhile (· = '/')).reverse ++ ['/']

/-- The authorization predicate exactly as the claim words it: the path
equals a prefix with its trailing separator stripped, or starts with the
prefix normalized to end in a single trailing separator. -/
def specAuthorizes (ps : List (List Char)) (path : List Char) : Bool :=
  ps.any (fun q => path = (specNormalizeEntry q).dropLast ∨
    (specNormalizeEntry q).isPrefixOf path)

/-- C2 counterexample: for the allowed prefix `"src//"`, the claim's
normalization (`"src/"`, a single trailing separator) authorizes
`"src/a.txt"`, but `ensureOwned` keeps the prefix as `"src//"` (it only
appends a separator when none is present) and rejects the path. -/
theorem ensureOwned_doubleSlash_counterexample :
    specAuthorizes ["src//".toList] "src/a.txt".toList = true ∧
    ensureOwned [{ path := "src/a.txt".toList, invalid := false }] ["src//".toList] =
      Except.error ("patch ownership check failed:\n- ".toList ++
        "unauthorized path: ".toList ++ "src/a.txt".toList) := by
  constructor
  · decide
  · rfl

/-- C2 (amended): `ensureOwned` authorizes a touched path iff some
allowed prefix — backslashes converted, with a trailing separator
appended when it does not already end in one — equals the path after
dropping the prefix's final separator, or is a prefix of the path; the
allowed list must be non-empty and every touched file valid.  In
particular `"src/"` authorizes `"src/a.txt"` and `"src/sub/b.txt"` and
rejects `"srcx/a.txt"` and `"README.md"`; and an ownership rejection
happens before any git operation, so it performs zero filesystem
mutation. -/
theorem ensureOwned_authorization :
    (∀ tf aps, ensureOwned tf aps = Except.ok () ↔
      (normalizeAllowed aps ≠ [] ∧
       ∀ f ∈ tf, f.invalid = false ∧ isOwnedBy (normalizeAllowed aps) f.path = true)) ∧
    (isOwnedBy (normalizeAllowed ["src/".toList]) "src/a.txt".toList = true ∧
     isOwnedBy (normalizeAllowed ["src/".toList]) "src/sub/b.txt".toList = true ∧
     isOwnedBy (normalizeAllowed ["src/".toList]) "srcx/a.txt".toList = false ∧
     isOwnedBy (normalizeAllowed ["src/".toList]) "README.md".toList = false) ∧
    (∀ env p aps e, trimChars p ≠ [] → touchedFilesFromUnifiedDiff p ≠ [] →
      ensureOwned (touchedFilesFromUnifiedDiff p) aps = Except.error e →
      applyPatchLocal env p aps = ([], Except.error e)) := by
  refine ⟨ensureOwned_ok_iff, by decide, ?_⟩
  intro env p aps e htrim htouched hown
  simp [applyPatchLocal, htrim, htouched, hown]

theorem ensureOwned_authorization_witness :
    applyPatchLocal ⟨true, true⟩
        "diff --git a/README.md b/README.md".toList ["src/".toList] =
      ([], Except.error ("patch ownership check failed:\n- ".toList ++
        "unauthorized path: ".toList ++ "README.md".toList)) :=
  ensureOwned_authorization.2.2 ⟨true, true⟩
    "diff --git a/README.md b/README.md".toList ["src/".toList]
    ("patch ownership check failed:\n- ".toList ++
      "unauthorized path: ".toList ++ "README.md".toList)
    (by decide) (by decide) (by rfl)

/-! ## C4 — path traversal recording -/

/-- C4: the path `".."` — a pure `..` traversal segment — normalizes to
`".."` itself, escaping all three rejection tests of
`normalizeRepoPath`, so it is recorded as a *valid* touched file, while
the claim (and the code's own comment) require any path containing a
`..` traversal segment to be recorded as invalid. -/
theorem normalizeRepoPath_dotdot_code_bug :
    touchedFilesFromUnifiedDiff "diff --git a/.. b/..".toList =
      [{ path := "..".toList, invalid := false }] ∧
    ['.', '.'] ∈ splitOnChar '/' (backslashToSlash "..".toList) ∧
    normalizeRepoPath "..".toList = some "..".toList := by
  decide

/-! ## C1 — plan validation: structural lemmas -/

/-- The dependency edge relation of a plan's task graph: `a → b` when the
task stored under id `a` lists `b` in its `dependsOn`. -/
def depEdge (tasks : List TaskT) (a b : List Char) : Prop :=
  b ∈ depsOf tasks a

/-- Acyclicity of the dependency graph: no id reaches itself through a
non-empty chain of `dependsOn` edges. -/
def PlanAcyclic (p : PlanT) : Prop :=
  ∀ x, ¬ Relation.TransGen (depEdge p.tasks) x x

/-- The per-task field conditions `validatePlan`'s first loop checks. -/
def TaskFieldsOK (t : TaskT) : Prop :=
  t.id ≠ [] ∧ t.title ≠ [] ∧ t.kind = "patch".toList ∧ (∀ d ∈ t.dependsOn, d ≠ []) ∧
  t.allowedPathPrefixes ≠ [] ∧ (∀ q ∈ t.allowedPathPrefixes, q ≠ []) ∧ t.prompt ≠ []

/-- All the conditions under which `validatePlan` reports nothing. -/
def PlanWellFormed (p : PlanT) : Prop :=
  p.version = 1 ∧ p.intent ≠ [] ∧ p.tasks ≠ [] ∧ (∀ t ∈ p.tasks, TaskFieldsOK t) ∧
  (p.tasks.map TaskT.id).Nodup ∧
  (∀ t ∈ p.tasks, ∀ d ∈ t.dependsOn, d ∈ p.tasks.map TaskT.id) ∧ PlanAcyclic p

theorem validateStringE_nil_iff (path : String) (v : List Char) :
    validateStringE path v = [] ↔ v ≠ [] := by
  unfold validateStringE
  split
  · rename_i h
    constructor
    · intro h'; exact absurd h' (by simp)
    · intro hv
      exact absurd (Nat.lt_one_iff.mp h) (by simpa [List.length_eq_zero] using hv)
  · rename_i h
    constructor
    · intro _ hv
      subst hv
      exact h (by simp)
    · intro _; rfl

theorem validateEntriesFrom_nil_iff (path : String) :
    ∀ (v : List (List Char)) (i : Nat),
      validateEntriesFrom path i v = [] ↔ ∀ s ∈ v, s ≠ [] := by
  intro v
  induction v with
  | nil => intro i; simp [validateEntriesFrom]
  | cons s rest ih =>
    intro i
    simp only [validateEntriesFrom, List.append_eq_nil, List.mem_cons]
    rw [validateStringE_nil_iff, ih (i + 1)]
    constructor
    · rintro ⟨h1, h2⟩ x hx
      rcases hx with rfl | hx
      · exact h1
      · exact h2 x hx
    · intro h
      exact ⟨h s (Or.inl rfl), fun x hx => h x (Or.inr hx)⟩

theorem validateStringArrayE_nil_iff (path : String) (v : List (List Char)) (minItems : Nat) :
    validateStringArrayE path v minItems = [] ↔
      (minItems ≤ v.length ∧ ∀ s ∈ v, s ≠ []) := by
  unfold validateStringArrayE
  rw [List.append_eq_nil, validateEntriesFrom_nil_iff]
  constructor
  · rintro ⟨h1, h2⟩
    refine ⟨?_, h2⟩
    by_contra hlt
    rw [if_pos (by omega)] at h1
    exact absurd h1 (by simp)
  · rintro ⟨h1, h2⟩
    exact ⟨by rw [if_neg (by omega)], h2⟩

theorem taskErrs_nil_iff (i : Nat) (seen : List (List Char)) (t : TaskT) :
    taskErrs i seen t = [] ↔ (TaskFieldsOK t ∧ t.id ∉ seen) := by
  unfold taskErrs TaskFieldsOK
  simp only [List.append_eq_nil, and_assoc]
  rw [validateStringE_nil_iff, validateStringE_nil_iff, validateStringE_nil_iff,
    validateStringArrayE_nil_iff, validateStringArrayE_nil_iff]
  constructor
  · rintro ⟨h1, h2, hk, ⟨_, h4⟩, ⟨h5a, h5b⟩, h6, h7⟩
    refine ⟨h1, h2, ?_, h4, ?_, h5b, h6, ?_⟩
    · by_contra hne
      rw [if_neg hne] at hk
      exact absurd hk (by simp)
    · intro hnil
      rw [hnil] at h5a
      simp at h5a
    · intro hmem
      rw [if_pos hmem] at h7
      exact absurd h7 (by simp)
  · rintro ⟨h1, h2, hk, h4, h5, h5b, h6, hseen⟩
    refine ⟨h1, h2, by rw [if_pos hk], ⟨Nat.zero_le _, h4⟩, ⟨?_, h5b⟩, h6,
      by rw [if_neg hseen]⟩
    rcases hap : t.allowedPathPrefixes with _ | ⟨q, qs⟩
    · exact absurd hap h5
    · simp

theorem tasksLoop_nil_iff :
    ∀ (ts : List TaskT) (i : Nat) (seen : List (List Char)),
      tasksLoop i seen ts = [] ↔
        ((∀ t ∈ ts, TaskFieldsOK t) ∧ (ts.map TaskT.id).Nodup ∧
          ∀ t ∈ ts, t.id ∉ seen) := by
  intro ts
  induction ts with
  | nil => intro i seen; simp [tasksLoop]
  | cons t rest ih =>
    intro i seen
    simp only [tasksLoop, List.append_eq_nil]
    rw [taskErrs_nil_iff, ih (i + 1) (t.id :: seen)]
    constructor
    · rintro ⟨⟨hok, hns⟩, hall, hnd, hnseen⟩
      refine ⟨?_, ?_, ?_⟩
      · intro x hx
        rcases List.mem_cons.mp hx with rfl | hx
        · exact hok
        · exact hall x hx
      · rw [List.map_cons, List.nodup_cons]
        refine ⟨?_, hnd⟩
        intro hmem
        obtain ⟨t', ht', hid⟩ := List.mem_map.mp hmem
        exact (hnseen t' ht') (List.mem_cons.mpr (Or.inl hid))
      · intro x hx
        rcases List.mem_cons.mp hx with rfl | hx
        · exact hns
        · intro hmem
          exact (hnseen x hx) (List.mem_cons.mpr (Or.inr hmem))
    · rintro ⟨hall, hnd, hnseen⟩
      rw [List.map_cons, List.nodup_cons] at hnd
      refine ⟨⟨hall t (List.mem_cons_self _ _), hnseen t (List.mem_cons_self _ _)⟩,
        fun x hx => hall x (List.mem_cons_of_mem _ hx), hnd.2, ?_⟩
      intro x hx hmem
      rcases List.mem_cons.mp hmem with hmem2 | hmem2
      · exact hnd.1 (List.mem_map.mpr ⟨x, hx, hmem2⟩)
      · exact (hnseen x (List.mem_cons_of_mem _ hx)) hmem2

theorem lookupById_foldl (id : List Char) :
    ∀ (l : List TaskT) (acc : Option TaskT),
      l.foldl (fun a t' => if t'.id = id then some t' else a) acc =
        (match lookupById l id with
         | some u => some u
         | none => acc) := by
  intro l
  induction l with
  | nil => intro acc; rfl
  | cons t rest ih =>
    intro acc
    show rest.foldl _ (if t.id = id then some t else acc) = _
    rw [ih]
    show _ = (match rest.foldl _ (if t.id = id then some t else none) with
      | some u => some u
      | none => acc)
    rw [ih]
    cases hr : lookupById rest id with
    | some u => rfl
    | none =>
      by_cases ht : t.id = id
      · rw [if_pos ht, if_pos ht]
      · rw [if_neg ht, if_neg ht]

theorem lookupById_cons (t : TaskT) (rest : List TaskT) (id : List Char) :
    lookupById (t :: rest) id =
      (match lookupById rest id with
       | some u => some u
       | none => if t.id = id then some t else none) := by
  show rest.foldl _ (if t.id = id then some t else none) = _
  rw [lookupById_foldl]

theorem lookupById_mem {tasks : List TaskT} {id : List Char} {t : TaskT} :
    lookupById tasks id = some t → t ∈ tasks ∧ t.id = id := by
  induction tasks with
  | nil => intro h; exact Option.noConfusion h
  | cons t' rest ih =>
    intro h
    rw [lookupById_cons] at h
    cases hr : lookupById rest id with
    | some u =>
      rw [hr] at h
      cases h
      obtain ⟨hm, hi⟩ := ih hr
      exact ⟨List.mem_cons_of_mem _ hm, hi⟩
    | none =>
      rw [hr] at h
      by_cases ht : t'.id = id
      · rw [if_pos ht] at h
        cases h
        exact ⟨List.mem_cons_self _ _, ht⟩
      · rw [if_neg ht] at h
        exact Option.noConfusion h

theorem lookupById_isSome_iff (tasks : List TaskT) (id : List Char) :
    (lookupById tasks id).isSome = true ↔ id ∈ tasks.map TaskT.id := by
  induction tasks with
  | nil => simp [lookupById]
  | cons t rest ih =>
    rw [lookupById_cons]
    cases hr : lookupById rest id with
    | some u =>
      simp only [Option.isSome_some, true_iff, List.map_cons, List.mem_cons]
      exact Or.inr (ih.mp (by rw [hr]; rfl))
    | none =>
      rw [hr] at ih
      by_cases ht : t.id = id
      · rw [if_pos ht]
        simp only [Option.isSome_some, true_iff, List.map_cons, List.mem_cons]
        exact Or.inl ht.symm
      · rw [if_neg ht]
        simp only [List.map_cons, List.mem_cons]
        constructor
        · intro h
          simp at h
        · rintro (h | h)
          · exact absurd h.symm ht
          · have := ih.mpr h
            simp at this

theorem depRefInner_nil_iff (tasks : List TaskT) (i : Nat) :
    ∀ (ds : List (List Char)) (j : Nat),
      depRefInner tasks i j ds = [] ↔
        ∀ d ∈ ds, (lookupById tasks d).isSome = true := by
  intro ds
  induction ds with
  | nil => intro j; simp [depRefInner]
  | cons d rest ih =>
    intro j
    simp only [depRefInner, List.append_eq_nil, List.mem_cons]
    rw [ih (j + 1)]
    constructor
    · rintro ⟨h1, h2⟩ x hx
      rcases hx with rfl | hx
      · by_contra hns
        rw [if_neg hns] at h1
        exact absurd h1 (by simp)
      · exact h2 x hx
    · intro h
      exact ⟨by rw [if_pos (h d (Or.inl rfl))], fun x hx => h x (Or.inr hx)⟩

theorem depRefOuter_nil_iff (tasks : List TaskT) :
    ∀ (ts : List TaskT) (i : Nat),
      depRefOuter tasks i ts = [] ↔
        ∀ t ∈ ts, ∀ d ∈ t.dependsOn, (lookupById tasks d).isSome = true := by
  intro ts
  induction ts with
  | nil => intro i; simp [depRefOuter]
  | cons t rest ih =>
    intro i
    simp only [depRefOuter, List.append_eq_nil, List.mem_cons]
    rw [depRefInner_nil_iff, ih (i + 1)]
    constructor
    · rintro ⟨h1, h2⟩ x hx
      rcases hx with rfl | hx
      · exact h1
      · exact h2 x hx
    · intro h
      exact ⟨h t (Or.inl rfl), fun x hx => h x (Or.inr hx)⟩

/-! ## C1 — cycle-detection DFS: state-shape lemmas -/

/-- How a `dfsAux` call relates its output state to its input state:
`visiting` is restored, `visited` and `errs` only grow. -/
def DfsExtends (s r : DfsSt) : Prop :=
  r.visiting = s.visiting ∧ (∃ nv, r.visited = nv ++ s.visited) ∧
  (∃ ne, r.errs = s.errs ++ ne)

theorem dfsExtends_refl (s : DfsSt) : DfsExtends s s :=
  ⟨rfl, ⟨[], rfl⟩, ⟨[], by simp⟩⟩

theorem dfsExtends_trans {a b c : DfsSt} (h1 : DfsExtends a b) (h2 : DfsExtends b c) :
    DfsExtends a c := by
  obtain ⟨hv1, ⟨n1, hn1⟩, ⟨e1, he1⟩⟩ := h1
  obtain ⟨hv2, ⟨n2, hn2⟩, ⟨e2, he2⟩⟩ := h2
  exact ⟨hv2.trans hv1, ⟨n2 ++ n1, by rw [hn2, hn1, List.append_assoc]⟩,
    ⟨e1 ++ e2, by rw [he2, he1, List.append_assoc]⟩⟩

theorem dfsAux_extends (tasks : List TaskT) :
    ∀ (fuel : Nat) (id : List Char) (s : DfsSt), DfsExtends s (dfsAux tasks fuel id s) := by
  intro fuel
  induction fuel with
  | zero => intro id s; exact dfsExtends_refl s
  | succ n ih =>
    intro id s
    by_cases h1 : id ∈ s.visited
    · simp only [dfsAux, if_pos h1]
      exact dfsExtends_refl s
    by_cases h2 : id ∈ s.visiting
    · simp only [dfsAux, if_neg h1, if_pos h2]
      exact ⟨rfl, ⟨[], rfl⟩, ⟨[cycleErrOf id], rfl⟩⟩
    · simp only [dfsAux, if_neg h1, if_neg h2]
      have hfold : ∀ (l : List (List Char)) (s' : DfsSt),
          DfsExtends s' (l.foldl (fun acc dep => dfsAux tasks n dep acc) s') := by
        intro l
        induction l with
        | nil => intro s'; exact dfsExtends_refl s'
        | cons d ds ihl =>
          intro s'
          exact dfsExtends_trans (ih d s') (ihl (dfsAux tasks n d s'))
      obtain ⟨hv, ⟨nv, hnv⟩, ⟨ne, hne⟩⟩ :=
        hfold (depsOf tasks id) { s with visiting := id :: s.visiting }
      dsimp only at hv hnv hne
      refine ⟨?_, ⟨id :: nv, ?_⟩, ⟨ne, ?_⟩⟩
      · dsimp only
        rw [hv, List.erase_cons_head]
      · dsimp only
        simp [hnv]
      · dsimp only
        exact hne

/-! ## C1 — cycle-detection DFS: no cycle means no error -/

theorem chain_mem_transGen {E : List Char → List Char → Prop} :
    ∀ (l : List (List Char)) (x y : List Char),
      List.Chain' (fun a b => E b a) (x :: l) → y ∈ l → Relation.TransGen E y x := by
  intro l
  induction l with
  | nil =>
    intro x y _ hy
    exact absurd hy (List.not_mem_nil y)
  | cons a t ih =>
    intro x y hch hy
    have hEax : E a x := (List.chain'_cons.mp hch).1
    have hch' : List.Chain' (fun a b => E b a) (a :: t) := (List.chain'_cons.mp hch).2
    rcases List.mem_cons.mp hy with rfl | hy
    · exact Relation.TransGen.single hEax
    · exact Relation.TransGen.tail (ih a y hch' hy) hEax

theorem dfsAux_errs_of_acyclic (tasks : List TaskT)
    (acyc : ∀ x, ¬ Relation.TransGen (depEdge tasks) x x) :
    ∀ (fuel : Nat) (id : List Char) (s : DfsSt),
      List.Chain' (fun a b => depEdge tasks b a) (id :: s.visiting) →
      (dfsAux tasks fuel id s).errs = s.errs := by
  intro fuel
  induction fuel with
  | zero => intro id s _; rfl
  | succ n ih =>
    intro id s hch
    by_cases h1 : id ∈ s.visited
    · simp only [dfsAux, if_pos h1]
    by_cases h2 : id ∈ s.visiting
    · exact absurd (chain_mem_transGen s.visiting id id hch h2) (acyc id)
    · simp only [dfsAux, if_neg h1, if_neg h2]
      have hfold : ∀ (l : List (List Char)), (∀ d ∈ l, depEdge tasks id d) →
          ∀ (s' : DfsSt), s'.visiting = id :: s.visiting → s'.errs = s.errs →
          (l.foldl (fun acc dep => dfsAux tasks n dep acc) s').errs = s.errs := by
        intro l
        induction l with
        | nil => intro _ s' _ herr; exact herr
        | cons d ds ihl =>
          intro hdl s' hvis herr
          have hchd : List.Chain' (fun a b => depEdge tasks b a) (d :: s'.visiting) := by
            rw [hvis]
            exact List.chain'_cons.mpr ⟨hdl d (List.mem_cons_self _ _), hch⟩
          have herr2 : (dfsAux tasks n d s').errs = s'.errs := ih d s' hchd
          have hvis2 : (dfsAux tasks n d s').visiting = s'.visiting :=
            (dfsAux_extends tasks n d s').1
          exact ihl (fun d' hd' => hdl d' (List.mem_cons_of_mem _ hd'))
            (dfsAux tasks n d s') (hvis2.trans hvis) (herr2.trans herr)
      exact hfold (depsOf tasks id) (fun d hd => hd)
        { s with visiting := id :: s.visiting } rfl rfl

/-! ## C1 — cycle-detection DFS: finish order and completeness -/

theorem dfsFold_extends (tasks : List TaskT) (n : Nat) :
    ∀ (l : List (List Char)) (s' : DfsSt),
      DfsExtends s' (l.foldl (fun acc dep => dfsAux tasks n dep acc) s') := by
  intro l
  induction l with
  | nil => intro s'; exact dfsExtends_refl s'
  | cons d ds ihl =>
    intro s'
    exact dfsExtends_trans (dfsAux_extends tasks n d s') (ihl (dfsAux tasks n d s'))

/-- The visited list the DFS builds is in reverse finish order: each
newly finished node's dependencies are already in the list behind it.
Such a list witnesses a topological order. -/
inductive TopoList (tasks : List TaskT) : List (List Char) → Prop where
  | nil : TopoList tasks []
  | cons {x : List Char} {l : List (List Char)} :
      (∀ b, depEdge tasks x b → b ∈ l) → x ∉ l → TopoList tasks l →
      TopoList tasks (x :: l)

theorem topoList_closed {tasks : List TaskT} {l : List (List Char)}
    (h : TopoList tasks l) :
    ∀ a ∈ l, ∀ b, depEdge tasks a b → b ∈ l := by
  induction h with
  | nil => intro a ha; exact absurd ha (List.not_mem_nil a)
  | cons hx hnx hl ih =>
    intro a ha b hab
    rcases List.mem_cons.mp ha with rfl | ha'
    · exact List.mem_cons_of_mem _ (hx b hab)
    · exact List.mem_cons_of_mem _ (ih a ha' b hab)

theorem topoList_reach {tasks : List TaskT} {l : List (List Char)}
    (h : TopoList tasks l) {a b : List Char} (ha : a ∈ l)
    (hr : Relation.TransGen (depEdge tasks) a b) : b ∈ l := by
  induction hr with
  | single hab => exact topoList_closed h _ ha _ hab
  | tail _ hbc ihr => exact topoList_closed h _ ihr _ hbc

theorem topoList_acyclic {tasks : List TaskT} {l : List (List Char)}
    (h : TopoList tasks l) :
    ∀ a ∈ l, ¬ Relation.TransGen (depEdge tasks) a a := by
  induction h with
  | nil => intro a ha; exact absurd ha (List.not_mem_nil a)
  | cons hx hnx hl ih =>
    intro a ha hcyc
    rcases List.mem_cons.mp ha with rfl | ha'
    · obtain ⟨c, hac, hca⟩ := Relation.TransGen.head'_iff.mp hcyc
      have hcl := hx c hac
      rcases Relation.reflTransGen_iff_eq_or_transGen.mp hca with rfl | htr
      · exact hnx hcl
      · exact hnx (topoList_reach hl hcl htr)
    · exact ih a ha' hcyc

/-- Every id the DFS can ever touch: the driver's keys plus every
`dependsOn` entry. -/
def allIds (tasks : List TaskT) : List (List Char) :=
  idKeys tasks ++ (tasks.map (fun t => t.dependsOn)).flatten

theorem idKeys_mem_iff :
    ∀ (tasks : List TaskT) (x : List Char), x ∈ idKeys tasks ↔ x ∈ tasks.map TaskT.id := by
  intro tasks
  induction tasks with
  | nil => intro x; simp [idKeys]
  | cons t rest ih =>
    intro x
    simp only [idKeys, List.mem_cons, List.map_cons]
    constructor
    · rintro (rfl | hx)
      · exact Or.inl rfl
      · exact Or.inr (ih x |>.mp (List.mem_of_mem_filter hx))
    · rintro (rfl | hx)
      · exact Or.inl rfl
      · by_cases he : x = t.id
        · exact Or.inl he
        · refine Or.inr (List.mem_filter.mpr ⟨(ih x).mpr hx, ?_⟩)
          simpa using he

theorem depsOf_subset_allIds (tasks : List TaskT) (a : List Char) :
    ∀ d ∈ depsOf tasks a, d ∈ allIds tasks := by
  intro d hd
  unfold depsOf at hd
  cases hl : lookupById tasks a with
  | none => rw [hl] at hd; exact absurd hd (List.not_mem_nil d)
  | some t =>
    rw [hl] at hd
    obtain ⟨hm, _⟩ := lookupById_mem hl
    exact List.mem_append_right _
      (List.mem_flatten.mpr ⟨t.dependsOn, List.mem_map.mpr ⟨t, hm, rfl⟩, hd⟩)

theorem keys_subset_allIds (tasks : List TaskT) :
    ∀ k ∈ idKeys tasks, k ∈ allIds tasks :=
  fun _ hk => List.mem_append_left _ hk

theorem outEdge_mem_keys (tasks : List TaskT) (a : List Char)
    (h : depsOf tasks a ≠ []) : a ∈ idKeys tasks := by
  unfold depsOf at h
  cases hl : lookupById tasks a with
  | none => rw [hl] at h; exact absurd rfl h
  | some t =>
    have : (lookupById tasks a).isSome = true := by rw [hl]; rfl
    exact (idKeys_mem_iff tasks a).mpr ((lookupById_isSome_iff tasks a).mp this)

theorem card_lt_cycleFuel (tasks : List TaskT) :
    ((allIds tasks).toFinset).card < cycleFuel tasks := by
  have h1 : (allIds tasks).toFinset.card ≤ (allIds tasks).length :=
    List.toFinset_card_le _
  have h2 : (allIds tasks).length =
      (idKeys tasks).length + ((tasks.map (fun t => t.dependsOn)).flatten).length :=
    List.length_append _ _
  have h3 : ((tasks.map (fun t => t.dependsOn)).flatten).length =
      (tasks.map (fun t => t.dependsOn.length)).sum := by
    rw [List.length_flatten, List.map_map]
    rfl
  unfold cycleFuel
  omega

theorem dfsAux_complete (tasks : List TaskT) :
    ∀ (fuel : Nat) (id : List Char) (s : DfsSt),
      id ∈ allIds tasks →
      (∀ v ∈ s.visiting, v ∈ allIds tasks) →
      ((allIds tasks).toFinset \ s.visiting.toFinset).card < fuel →
      TopoList tasks s.visited →
      (dfsAux tasks fuel id s).errs = s.errs →
      (id ∈ (dfsAux tasks fuel id s).visited ∧
       TopoList tasks (dfsAux tasks fuel id s).visited ∧
       (∀ x ∈ (dfsAux tasks fuel id s).visited, x ∈ s.visited ∨ x ∉ s.visiting)) := by
  intro fuel
  induction fuel with
  | zero =>
    intro id s _ _ hcard _ _
    omega
  | succ n ih =>
    intro id s hidU hvisU hcard htopo hnoerr
    by_cases h1 : id ∈ s.visited
    · simp only [dfsAux, if_pos h1]
      exact ⟨h1, htopo, fun x hx => Or.inl hx⟩
    by_cases h2 : id ∈ s.visiting
    · exfalso
      simp only [dfsAux, if_neg h1, if_pos h2] at hnoerr
      have := congrArg List.length hnoerr
      simp at this
    · simp only [dfsAux, if_neg h1, if_neg h2] at hnoerr ⊢
      have hcard1 : ∀ (V : List (List Char)), V = id :: s.visiting →
          ((allIds tasks).toFinset \ V.toFinset).card < n := by
        intro V hV
        subst hV
        rw [List.toFinset_cons, Finset.sdiff_insert]
        have hmem : id ∈ (allIds tasks).toFinset \ s.visiting.toFinset := by
          rw [Finset.mem_sdiff]
          exact ⟨List.mem_toFinset.mpr hidU, fun hc => h2 (List.mem_toFinset.mp hc)⟩
        have hpos : 0 < ((allIds tasks).toFinset \ s.visiting.toFinset).card :=
          Finset.card_pos.mpr ⟨id, hmem⟩
        rw [Finset.card_erase_of_mem hmem]
        omega
      have hfold : ∀ (l : List (List Char)), (∀ d ∈ l, d ∈ allIds tasks) →
          ∀ (s' : DfsSt), s'.visiting = id :: s.visiting →
          TopoList tasks s'.visited →
          (∀ x ∈ s'.visited, x ∈ s.visited ∨ (x ∉ s.visiting ∧ x ≠ id)) →
          (l.foldl (fun acc dep => dfsAux tasks n dep acc) s').errs = s'.errs →
          ((∀ d ∈ l, d ∈ (l.foldl (fun acc dep => dfsAux tasks n dep acc) s').visited) ∧
           (∀ x ∈ s'.visited,
             x ∈ (l.foldl (fun acc dep => dfsAux tasks n dep acc) s').visited) ∧
           TopoList tasks (l.foldl (fun acc dep => dfsAux tasks n dep acc) s').visited ∧
           (∀ x ∈ (l.foldl (fun acc dep => dfsAux tasks n dep acc) s').visited,
             x ∈ s.visited ∨ (x ∉ s.visiting ∧ x ≠ id))) := by
        intro l
        induction l with
        | nil =>
          intro _ s' _ ht hP _
          exact ⟨fun d hd => absurd hd (List.not_mem_nil d), fun x hx => hx, ht, hP⟩
        | cons d ds ihl =>
          intro hdl s' hv ht hP hne
          simp only [List.foldl_cons] at hne ⊢
          obtain ⟨hvd, ⟨nv, hnv⟩, ⟨e1, he1⟩⟩ := dfsAux_extends tasks n d s'
          obtain ⟨-, -, ⟨e2, he2⟩⟩ := dfsFold_extends tasks n ds (dfsAux tasks n d s')
          have he1nil : e1 = [] ∧ e2 = [] := by
            rw [he2, he1] at hne
            have hl := congrArg List.length hne
            simp only [List.length_append] at hl
            constructor <;> [skip; skip] <;>
              exact List.eq_nil_of_length_eq_zero (by omega)
          have hstep_err : (dfsAux tasks n d s').errs = s'.errs := by
            rw [he1, he1nil.1, List.append_nil]
          have hrest_err : (ds.foldl (fun acc dep => dfsAux tasks n dep acc)
              (dfsAux tasks n d s')).errs = (dfsAux tasks n d s').errs := by
            rw [he2, he1nil.2, List.append_nil]
          have hvisU' : ∀ v ∈ s'.visiting, v ∈ allIds tasks := by
            rw [hv]
            intro v hv'
            rcases List.mem_cons.mp hv' with rfl | hv''
            · exact hidU
            · exact hvisU v hv''
          obtain ⟨hdin, htd, hPd⟩ := ih d s' (hdl d (List.mem_cons_self _ _)) hvisU'
            (hcard1 s'.visiting hv) ht hstep_err
          have hPd' : ∀ x ∈ (dfsAux tasks n d s').visited,
              x ∈ s.visited ∨ (x ∉ s.visiting ∧ x ≠ id) := by
            intro x hx
            rcases hPd x hx with hx' | hx'
            · exact hP x hx'
            · rw [hv] at hx'
              exact Or.inr ⟨fun hc => hx' (List.mem_cons_of_mem _ hc),
                fun hc => hx' (by rw [hc]; exact List.mem_cons_self _ _)⟩
          obtain ⟨hds_in, hmono, htf, hPf⟩ :=
            ihl (fun d' hd' => hdl d' (List.mem_cons_of_mem _ hd'))
              (dfsAux tasks n d s') (hvd.trans hv) htd hPd' hrest_err
          refine ⟨?_, ?_, htf, hPf⟩
          · intro d' hd'
            rcases List.mem_cons.mp hd' with rfl | hd''
            · exact hmono d' hdin
            · exact hds_in d' hd''
          · intro x hx
            exact hmono x (by rw [hnv]; exact List.mem_append_right _ hx)
      obtain ⟨hdeps, hmono, htopo2, hP2⟩ :=
        hfold (depsOf tasks id) (depsOf_subset_allIds tasks id)
          { s with visiting := id :: s.visiting } rfl htopo
          (fun x hx => Or.inl hx) hnoerr
      have hid_not : id ∉ (((depsOf tasks id).foldl
          (fun acc dep => dfsAux tasks n dep acc)
          { s with visiting := id :: s.visiting }).visited) := by
        intro hidin
        rcases hP2 id hidin with hl | hr
        · exact h1 hl
        · exact hr.2 rfl
      refine ⟨List.mem_cons_self _ _, ?_, ?_⟩
      · exact TopoList.cons (fun b hb => hdeps b hb) hid_not htopo2
      · intro x hx
        rcases List.mem_cons.mp hx with rfl | hx'
        · exact Or.inr h2
        · rcases hP2 x hx' with hl | hr
          · exact Or.inl hl
          · exact Or.inr hr.1

theorem cycleErrs_nil_iff (tasks : List TaskT) :
    cycleErrs tasks = [] ↔ ∀ x, ¬ Relation.TransGen (depEdge tasks) x x := by
  constructor
  · intro hnil
    have main : ∀ (ks : List (List Char)), (∀ k ∈ ks, k ∈ allIds tasks) →
        ∀ (s : DfsSt), s.visiting = [] → TopoList tasks s.visited →
        (ks.foldl (fun s' id => dfsAux tasks (cycleFuel tasks) id s') s).errs = s.errs →
        (TopoList tasks
            (ks.foldl (fun s' id => dfsAux tasks (cycleFuel tasks) id s') s).visited ∧
         (∀ k ∈ ks,
            k ∈ (ks.foldl (fun s' id => dfsAux tasks (cycleFuel tasks) id s') s).visited) ∧
         (∀ x ∈ s.visited,
            x ∈ (ks.foldl (fun s' id => dfsAux tasks (cycleFuel tasks) id s') s).visited) ∧
         (ks.foldl (fun s' id => dfsAux tasks (cycleFuel tasks) id s') s).visiting = []) := by
      intro ks
      induction ks with
      | nil =>
        intro _ s hv ht _
        exact ⟨ht, fun k hk => absurd hk (List.not_mem_nil k), fun x hx => hx, hv⟩
      | cons k ks ihk =>
        intro hkU s hv ht hne
        simp only [List.foldl_cons] at hne ⊢
        obtain ⟨hvd, ⟨nv, hnv⟩, ⟨e1, he1⟩⟩ := dfsAux_extends tasks (cycleFuel tasks) k s
        obtain ⟨-, -, ⟨e2, he2⟩⟩ :=
          dfsFold_extends tasks (cycleFuel tasks) ks (dfsAux tasks (cycleFuel tasks) k s)
        have henil : e1 = [] ∧ e2 = [] := by
          rw [he2, he1] at hne
          have hl := congrArg List.length hne
          simp only [List.length_append] at hl
          constructor <;> exact List.eq_nil_of_length_eq_zero (by omega)
        have hstep_err : (dfsAux tasks (cycleFuel tasks) k s).errs = s.errs := by
          rw [he1, henil.1, List.append_nil]
        have hrest_err : (ks.foldl (fun s' id => dfsAux tasks (cycleFuel tasks) id s')
            (dfsAux tasks (cycleFuel tasks) k s)).errs =
            (dfsAux tasks (cycleFuel tasks) k s).errs := by
          rw [he2, henil.2, List.append_nil]
        have hcard : ((allIds tasks).toFinset \ s.visiting.toFinset).card <
            cycleFuel tasks := by
          rw [hv]
          simpa using card_lt_cycleFuel tasks
        obtain ⟨hkin, htk, -⟩ := dfsAux_complete tasks (cycleFuel tasks) k s
          (hkU k (List.mem_cons_self _ _)) (by rw [hv]; intro v hv'; cases hv')
          hcard ht hstep_err
        obtain ⟨htf, hksin, hmono, hvf⟩ :=
          ihk (fun k' hk' => hkU k' (List.mem_cons_of_mem _ hk'))
            (dfsAux tasks (cycleFuel tasks) k s) (hvd.trans hv) htk hrest_err
        refine ⟨htf, ?_, ?_, hvf⟩
        · intro k' hk'
          rcases List.mem_cons.mp hk' with rfl | hk''
          · exact hmono k' hkin
          · exact hksin k' hk''
        · intro x hx
          exact hmono x (by rw [hnv]; exact List.mem_append_right _ hx)
    have hdrv := main (idKeys tasks) (keys_subset_allIds tasks)
      { visiting := [], visited := [], errs := [] } rfl TopoList.nil hnil
    obtain ⟨htf, hkeys, -, -⟩ := hdrv
    intro x hcyc
    obtain ⟨c, hxc, -⟩ := Relation.TransGen.head'_iff.mp hcyc
    have hxkeys : x ∈ idKeys tasks :=
      outEdge_mem_keys tasks x (List.ne_nil_of_mem hxc)
    exact topoList_acyclic htf x (hkeys x hxkeys) hcyc
  · intro acyc
    have main : ∀ (ks : List (List Char)) (s : DfsSt), s.visiting = [] →
        ((ks.foldl (fun s' id => dfsAux tasks (cycleFuel tasks) id s') s).errs = s.errs ∧
         (ks.foldl (fun s' id => dfsAux tasks (cycleFuel tasks) id s') s).visiting = []) := by
      intro ks
      induction ks with
      | nil => intro s hv; exact ⟨rfl, hv⟩
      | cons k ks ihk =>
        intro s hv
        simp only [List.foldl_cons]
        have hch : List.Chain' (fun a b => depEdge tasks b a) (k :: s.visiting) := by
          rw [hv]
          exact List.chain'_singleton k
        have hstep := dfsAux_errs_of_acyclic tasks acyc (cycleFuel tasks) k s hch
        have hvd := (dfsAux_extends tasks (cycleFuel tasks) k s).1
        obtain ⟨he, hvf⟩ := ihk (dfsAux tasks (cycleFuel tasks) k s) (hvd.trans hv)
        exact ⟨he.trans hstep, hvf⟩
    exact (main (idKeys tasks) { visiting := [], visited := [], errs := [] } rfl).1

/-! ## C1 — the validatePlan characterization -/

/-- A plan satisfying every condition listed by the claim (version,
non-empty intent, unique ids, resolving dependencies, acyclic graph) but
whose single task has `kind := "code"`. -/
def cPlan : PlanT :=
  ⟨1, "x".toList,
   [⟨"a".toList, "t".toList, "code".toList, [], ["src/".toList], "p".toList⟩]⟩

/-- C1 counterexample: `cPlan` meets all five conditions of the claimed
iff, yet `validatePlan` reports an error (for the task kind), so "no
errors" is not implied by those five conditions alone. -/
theorem validatePlan_claim_counterexample :
    validatePlan cPlan ≠ [] ∧ cPlan.version = 1 ∧ cPlan.intent ≠ [] ∧
    (cPlan.tasks.map TaskT.id).Nodup ∧
    (∀ t ∈ cPlan.tasks, ∀ d ∈ t.dependsOn, d ∈ cPlan.tasks.map TaskT.id) ∧
    PlanAcyclic cPlan := by
  refine ⟨by decide, by decide, by decide, by decide, by decide, ?_⟩
  intro x hcyc
  have hnoedge : ∀ a b, ¬ depEdge cPlan.tasks a b := by
    intro a b hab
    have hd : b ∈ depsOf cPlan.tasks a := hab
    unfold depsOf at hd
    cases hl : lookupById cPlan.tasks a with
    | none => rw [hl] at hd; exact absurd hd (List.not_mem_nil b)
    | some t =>
      rw [hl] at hd
      obtain ⟨hm, -⟩ := lookupById_mem hl
      have ht : t = ⟨"a".toList, "t".toList, "code".toList, [], ["src/".toList],
          "p".toList⟩ := by
        simpa [cPlan] using hm
      rw [ht] at hd
      exact absurd hd (List.not_mem_nil b)
  cases hcyc with
  | single h => exact hnoedge _ _ h
  | tail _ h => exact hnoedge _ _ h

/-- C1 (amended): `validatePlan` returns an empty error list iff the
version is 1, the intent is a non-empty string, the task list is
non-empty, every task is well-formed (non-empty id/title/prompt, kind
`"patch"`, non-empty `dependsOn` entries, a non-empty list of non-empty
`allowedPathPrefixes`), task ids are unique, every `dependsOn` entry
resolves to a task of the plan, and the dependency graph over task ids
is acyclic. -/
theorem validatePlan_empty_iff (p : PlanT) :
    validatePlan p = [] ↔ PlanWellFormed p := by
  unfold validatePlan PlanWellFormed PlanAcyclic depRefErrs
  simp only [List.append_eq_nil, and_assoc]
  rw [validateStringE_nil_iff, tasksLoop_nil_iff, depRefOuter_nil_iff, cycleErrs_nil_iff]
  constructor
  · rintro ⟨hver, hint, hlen, ⟨hok, hnd, -⟩, hdep, hacyc⟩
    refine ⟨?_, hint, ?_, hok, hnd, ?_, hacyc⟩
    · by_contra hv
      rw [if_pos hv] at hver
      exact absurd hver (by simp)
    · by_contra ht
      rw [if_pos (by rw [ht]; simp)] at hlen
      exact absurd hlen (by simp)
    · intro t ht' d hd
      exact (lookupById_isSome_iff p.tasks d).mp (hdep t ht' d hd)
  · rintro ⟨hver, hint, hlen, hok, hnd, hdep, hacyc⟩
    refine ⟨?_, hint, ?_, ⟨hok, hnd, fun t _ => List.not_mem_nil t.id⟩, ?_, hacyc⟩
    · rw [if_neg (by simp [hver])]
    · rw [if_neg (fun hc => hlen (List.length_eq_zero.mp (Nat.lt_one_iff.mp hc)))]
    · intro t ht' d hd
      exact (lookupById_isSome_iff p.tasks d).mpr (hdep t ht' d hd)

theorem validatePlan_empty_iff_witness :
    PlanWellFormed
      ⟨1, "x".toList,
       [⟨"a".toList, "t".toList, "patch".toList, [], ["src/".toList], "p".toList⟩]⟩ :=
  (validatePlan_empty_iff _).mp (by decide)

end ECC
